import Mathlib

/-!
Verification of the dynamic-type resolution code of the cty `convert`
package (file `dynamic.go` of the repository): `dynamicFixup`,
`dynamicPassthrough` and `dynamicReplace`, together with the parts of the
surrounding type model they depend on.

The type and value algebra is translated from the cty data model: a closed
tagged union of primitive types (string, number, bool), capsule types
(opaque, self-equal only, identified here by a tag), homogeneous
collections (list, set, map), structural types (object with named
attributes, tuple with positional elements), the dynamic pseudo-type and
the nil (zero) type.  Object attribute maps are modelled as association
lists with unique keys; map iteration order is modelled as the list order.
-/

set_option maxHeartbeats 1000000

inductive CtyPrim where
  | string
  | number
  | bool
deriving DecidableEq

/-- The cty type algebra.  `nil` is `cty.NilType` (the zero value of
`cty.Type`), `dynamic` is `cty.DynamicPseudoType`. -/
inductive CtyType where
  | nil
  | dynamic
  | prim (p : CtyPrim)
  | capsule (tag : Nat)
  | list (elem : CtyType)
  | set (elem : CtyType)
  | map (elem : CtyType)
  | object (attrs : List (String × CtyType))
  | tuple (elems : List CtyType)

/-- Constructor test for the dynamic pseudo-type. -/
def CtyType.isDynamicType : CtyType → Bool
  | .dynamic => true
  | _ => false

/-- Constructor test for the nil (zero) type. -/
def CtyType.isNilType : CtyType → Bool
  | .nil => true
  | _ => false

/-- `cty.Type.IsPrimitiveType`. -/
def CtyType.isPrimitiveType : CtyType → Bool
  | .prim _ => true
  | _ => false

/-- `cty.Type.IsCapsuleType`. -/
def CtyType.isCapsuleType : CtyType → Bool
  | .capsule _ => true
  | _ => false

/-- `cty.Type.IsMapType`. -/
def CtyType.isMapType : CtyType → Bool
  | .map _ => true
  | _ => false

/-- `cty.Type.IsObjectType`. -/
def CtyType.isObjectType : CtyType → Bool
  | .object _ => true
  | _ => false

/-- `cty.Type.IsSetType`. -/
def CtyType.isSetType : CtyType → Bool
  | .set _ => true
  | _ => false

/-- `cty.Type.IsListType`. -/
def CtyType.isListType : CtyType → Bool
  | .list _ => true
  | _ => false

/-- `cty.Type.IsTupleType`. -/
def CtyType.isTupleType : CtyType → Bool
  | .tuple _ => true
  | _ => false

/-- Association-list lookup on an attribute list, modelling map indexing
(`HasAttribute` / `AttributeType`) of a cty object type. -/
def lookupA : List (String × CtyType) → String → Option CtyType
  | [], _ => none
  | (k, v) :: rest, key => if k = key then some v else lookupA rest key

/-- A step of a cty path: index into a sequence, key into a mapping, or
attribute of a structure (spec section 3, Path). -/
inductive PathStep where
  | indexSeq (i : Nat)
  | keyMap (k : String)
  | attr (name : String)
deriving DecidableEq

/-- Modelled from the spec: conversion errors carry an optional path that
locates the failing sub-value (the error types of the cty package are not
among the provided sources).  `plain` is an error with no path yet,
`located` an error already attributed to a path. -/
inductive ConvError where
  | plain (msg : String)
  | located (path : List PathStep) (msg : String)
deriving DecidableEq

/-- Modelled from the spec: `cty.Path.NewError` (not among the provided
sources).  Rewrapping an error under a path prefixes the path, so that
"error paths compose across deferred boundaries": an error already located
at path `q` becomes located at `p ++ q`, a plain error becomes located at
`p`. -/
def pathNewError (p : List PathStep) : ConvError → ConvError
  | .plain m => .located p m
  | .located q m => .located (p ++ q) m

/-- The cty value model (spec section 3): nil value, typed null, typed
unknown, and concrete values of each type shape. -/
inductive CtyValue where
  | nilVal
  | nullV (ty : CtyType)
  | unknown (ty : CtyType)
  | boolV (b : Bool)
  | numV (n : Int)
  | strV (s : String)
  | listV (ety : CtyType) (xs : List CtyValue)
  | setV (ety : CtyType) (xs : List CtyValue)
  | mapV (ety : CtyType) (xs : List (String × CtyValue))
  | objV (attrs : List (String × CtyValue))
  | tupleV (xs : List CtyValue)
  | capsuleV (tag : Nat) (ident : Nat)

/-- The `conversion` function type of the convert package:
`func(cty.Value, cty.Path) (cty.Value, error)`, with the Go
`(value, error)` pair kept explicit. -/
def conversion : Type :=
  CtyValue → List PathStep → CtyValue × Option ConvError

/-- `dynamicFixup` from `dynamic.go`.  The package-level `Convert`
function that the Go closure references is not among the provided sources,
so it is taken here as an explicit parameter `convertFn` (a function from
a value and a target type to the Go result pair); the body is otherwise a
direct translation: run the conversion, and on failure return the nil
value together with the error rewrapped under the caller's path. -/
def dynamicFixup (convertFn : CtyValue → CtyType → CtyValue × Option ConvError)
    (wantType : CtyType) : conversion :=
  fun inVal path =>
    let res := convertFn inVal wantType
    match res.2 with
    | some err => (CtyValue.nilVal, some (pathNewError path err))
    | none => (res.1, none)

/-- `dynamicPassthrough` from `dynamic.go`: the identity conversion used
when the target type is the dynamic pseudo-type. -/
def dynamicPassthrough : conversion :=
  fun inVal _ => (inVal, none)

/-- C1: for every target type, the conversion returned by `dynamicFixup`
returns the result of `Convert` unchanged when `Convert` succeeds, and
when `Convert` fails it returns the nil value together with the inner
error rewrapped under the caller's path. -/
theorem C1_dynamicFixup_rewraps
    (convertFn : CtyValue → CtyType → CtyValue × Option ConvError)
    (wantType : CtyType) (v : CtyValue) (p : List PathStep) :
    ((convertFn v wantType).2 = none →
      dynamicFixup convertFn wantType v p = ((convertFn v wantType).1, none)) ∧
    (∀ e, (convertFn v wantType).2 = some e →
      dynamicFixup convertFn wantType v p =
        (CtyValue.nilVal, some (pathNewError p e))) := by
  constructor
  · intro h
    simp [dynamicFixup, h]
  · intro e h
    simp [dynamicFixup, h]

/-- A convert function that always succeeds, returning its input. -/
def convertAlwaysOk : CtyValue → CtyType → CtyValue × Option ConvError :=
  fun v _ => (v, none)

/-- A convert function that always fails with an error already located at
an inner path. -/
def convertAlwaysErr : CtyValue → CtyType → CtyValue × Option ConvError :=
  fun _ _ => (CtyValue.nilVal, some (ConvError.located [PathStep.attr "x"] "boom"))

theorem C1_dynamicFixup_rewraps_witness :
    dynamicFixup convertAlwaysOk (CtyType.prim .number) (CtyValue.numV 3)
      [PathStep.indexSeq 0] = (CtyValue.numV 3, none) ∧
    dynamicFixup convertAlwaysErr (CtyType.prim .number) (CtyValue.numV 3)
      [PathStep.indexSeq 0] =
      (CtyValue.nilVal,
        some (ConvError.located [PathStep.indexSeq 0, PathStep.attr "x"] "boom")) := by
  constructor
  · exact (C1_dynamicFixup_rewraps convertAlwaysOk (CtyType.prim .number)
      (CtyValue.numV 3) [PathStep.indexSeq 0]).1 rfl
  · exact (C1_dynamicFixup_rewraps convertAlwaysErr (CtyType.prim .number)
      (CtyValue.numV 3) [PathStep.indexSeq 0]).2 _ rfl

/-- Guards a unified element type: a failed (nil) inner unification makes
the whole container unification fail. -/
def mkListU : CtyType → CtyType
  | .nil => .nil
  | u => .list u

def mkSetU : CtyType → CtyType
  | .nil => .nil
  | u => .set u

def mkMapU : CtyType → CtyType
  | .nil => .nil
  | u => .map u

mutual

/-- Modelled from the spec (section 4.4): one widening step of
unification, computing a common type of `a` and `b` (`lossy` is the
spec's `unsafeAllowed` flag).  The `unify` function of the convert
package is not among the provided sources.  Equal types unify to
themselves, the dynamic pseudo-type unifies with anything yielding the
other type, distinct primitives widen toward the string (text) type only
in lossy mode, collections unify their element types recursively with
list the more general of list/set, tuples unify positionally at equal
arity and objects attribute-wise at equal attribute lists; `nil` means
failure.  The lossy fallbacks from mismatched tuples or objects to
list/map widening are modelled conservatively as failure. -/
def unifyStep (lossy : Bool) (a b : CtyType) : CtyType :=
  match a, b with
  | .dynamic, b => b
  | a, .dynamic => a
  | .prim p, .prim q =>
      if p = q then .prim p else if lossy then .prim .string else .nil
  | .capsule i, .capsule j => if i = j then .capsule i else .nil
  | .list x, .list y => mkListU (unifyStep lossy x y)
  | .set x, .set y => mkSetU (unifyStep lossy x y)
  | .list x, .set y => if lossy then mkListU (unifyStep lossy x y) else .nil
  | .set x, .list y => if lossy then mkListU (unifyStep lossy x y) else .nil
  | .map x, .map y => mkMapU (unifyStep lossy x y)
  | .object as_, .object bs =>
      match unifyAttrs lossy as_ bs with
      | some js => .object js
      | none => .nil
  | .tuple ts, .tuple ss =>
      match unifyElems lossy ts ss with
      | some js => .tuple js
      | none => .nil
  | _, _ => .nil
termination_by sizeOf a + sizeOf b

/-- Attribute-wise unification of two object attribute lists; requires the
same attribute names in the same order, else fails. -/
def unifyAttrs (lossy : Bool) (as_ bs : List (String × CtyType)) :
    Option (List (String × CtyType)) :=
  match as_, bs with
  | [], [] => some []
  | (k1, t1) :: as_, (k2, t2) :: bs =>
      if k1 = k2 then
        let j := unifyStep lossy t1 t2
        if j.isNilType then none
        else
          match unifyAttrs lossy as_ bs with
          | some js => some ((k1, j) :: js)
          | none => none
      else none
  | _, _ => none
termination_by sizeOf as_ + sizeOf bs

/-- Position-wise unification of two tuple element lists of equal arity. -/
def unifyElems (lossy : Bool) (ts ss : List CtyType) :
    Option (List CtyType) :=
  match ts, ss with
  | [], [] => some []
  | t :: ts, s :: ss =>
      let j := unifyStep lossy t s
      if j.isNilType then none
      else
        match unifyElems lossy ts ss with
        | some js => some (j :: js)
        | none => none
  | _, _ => none
termination_by sizeOf ts + sizeOf ss

end

/-- Folds `unifyStep` over the remaining types, starting from a running
candidate (spec section 4.4: start from the first type, then widen). -/
def unifyFold (lossy : Bool) : CtyType → List CtyType → CtyType
  | acc, [] => acc
  | acc, t :: ts => unifyFold lossy (unifyStep lossy acc t) ts

/-- Modelled from the spec: `unify(types, unsafe)` of the convert package
(not among the provided sources), restricted to the unified type it
returns (the accompanying conversion functions are dropped); `nil` is the
failure result. -/
def unify (types : List CtyType) (lossy : Bool) : CtyType :=
  match types with
  | [] => .nil
  | t :: ts => unifyFold lossy t ts

/-- The two ways `dynamicReplace` can fail fatally (Go panics):
`unrecognized t` is the explicit panic of the default branch of the type
switch, recording the target type that no case handled; `tupleAccess` is
the panic raised inside `Type.TupleElementType` when the source of a
tuple-target replacement is not a tuple or is a shorter tuple. -/
inductive Fault where
  | unrecognized (t : CtyType)
  | tupleAccess

mutual

/-- `dynamicReplace` from `dynamic.go`: aims to return the `out` type
unchanged, but replaces any dynamic pseudo-type found at any depth with
the structurally corresponding part of `in`.  Fatal faults (Go panics)
are made explicit in the `Except` result; otherwise the translation
follows the Go case by case, including the unification of object
attribute types (map target) and tuple element types (set/list targets),
and the nil element types produced when `in` has none of the variants a
branch recognizes. -/
def dynamicReplace (tin tout : CtyType) : Except Fault CtyType :=
  if tin.isDynamicType || tin.isNilType then .ok tout
  else
    match tout with
    | .dynamic => .ok tin
    | .prim p => .ok (.prim p)
    | .capsule c => .ok (.capsule c)
    | .map oe =>
        match tin with
        | .map ie => (dynamicReplace ie oe).map CtyType.map
        | .object iattrs =>
            (dynamicReplace (unify (iattrs.map Prod.snd) true) oe).map CtyType.map
        | _ => .ok (.map .nil)
    | .object oattrs =>
        match tin with
        | .map ie => (replaceAttrsFromMap ie oattrs).map CtyType.object
        | .object iattrs => (replaceAttrs iattrs oattrs).map CtyType.object
        | _ => .ok (.object [])
    | .set oe =>
        match tin with
        | .set ie => (dynamicReplace ie oe).map CtyType.set
        | .list ie => (dynamicReplace ie oe).map CtyType.set
        | .tuple tes => (dynamicReplace (unify tes true) oe).map CtyType.set
        | _ => .ok (.set .nil)
    | .list oe =>
        match tin with
        | .set ie => (dynamicReplace ie oe).map CtyType.list
        | .list ie => (dynamicReplace ie oe).map CtyType.list
        | .tuple tes => (dynamicReplace (unify tes true) oe).map CtyType.list
        | _ => .ok (.list .nil)
    | .tuple oes =>
        match tin with
        | .tuple tes => (replaceTupleElems tes oes).map CtyType.tuple
        | _ =>
            match oes with
            | [] => .ok (.tuple [])
            | _ :: _ => .error .tupleAccess
    | .nil => .error (.unrecognized .nil)
termination_by sizeOf tout

/-- The object-target loop of `dynamicReplace` when `in` is a map: every
attribute of `out` recurses against the map's element type. -/
def replaceAttrsFromMap (ie : CtyType) (oattrs : List (String × CtyType)) :
    Except Fault (List (String × CtyType)) :=
  match oattrs with
  | [] => .ok []
  | (k, t) :: rest => do
      let r ← dynamicReplace ie t
      let rs ← replaceAttrsFromMap ie rest
      return (k, r) :: rs
termination_by sizeOf oattrs

/-- The object-target loop of `dynamicReplace` when `in` is an object: an
attribute of `out` absent from `in` is kept as is, an attribute present
in both recurses on the two attribute types. -/
def replaceAttrs (iattrs oattrs : List (String × CtyType)) :
    Except Fault (List (String × CtyType)) :=
  match oattrs with
  | [] => .ok []
  | (k, t) :: rest => do
      let r ←
        match lookupA iattrs k with
        | none => Except.ok t
        | some s => dynamicReplace s t
      let rs ← replaceAttrs iattrs rest
      return (k, r) :: rs
termination_by sizeOf oattrs

/-- The tuple-target loop of `dynamicReplace`: positional recursion over
`out`'s element types, faulting (as `TupleElementType` does) when `in`
runs out of elements first. -/
def replaceTupleElems (tes oes : List CtyType) :
    Except Fault (List CtyType) :=
  match tes, oes with
  | _, [] => .ok []
  | [], _ :: _ => .error .tupleAccess
  | t :: tes, o :: oes => do
      let r ← dynamicReplace t o
      let rs ← replaceTupleElems tes oes
      return r :: rs
termination_by sizeOf oes

end

/-- Modelled from the spec (section 4.2): the primitive conversion table
in lossy ("unsafe") mode.  Identity always; text parses to number or
boolean (lossy, data-dependent); number and boolean render to text;
number and boolean are never interconvertible. -/
def primConv : CtyPrim → CtyPrim → Bool
  | .string, .string => true
  | .number, .number => true
  | .bool, .bool => true
  | .string, .number => true
  | .number, .string => true
  | .string, .bool => true
  | .bool, .string => true
  | _, _ => false

/-- True when every attribute of `as_` has an attribute of the same name
in `es`. -/
def keysContained (as_ es : List (String × CtyType)) : Bool :=
  as_.all fun kt => (lookupA es kt.1).isSome

/-- A type found by attribute lookup is structurally smaller than the
attribute list. -/
theorem sizeOf_lookupA :
    ∀ (as_ : List (String × CtyType)) (k : String) (s : CtyType),
      lookupA as_ k = some s → sizeOf s < sizeOf as_ := by
  intro as_
  induction as_ with
  | nil => intro k s h; simp [lookupA] at h
  | cons p rest ih =>
    intro k s h
    obtain ⟨k1, v⟩ := p
    by_cases hk : k1 = k
    · simp [lookupA, hk] at h
      subst h
      simp only [List.cons.sizeOf_spec, Prod.mk.sizeOf_spec]
      omega
    · simp [lookupA, hk] at h
      have := ih k s h
      simp only [List.cons.sizeOf_spec, Prod.mk.sizeOf_spec]
      omega

mutual

/-- Modelled from the spec (sections 4.2 and 4.3): type-level
convert-compatibility in lossy ("unsafe") mode — whether a conversion
from a value of type `a` to type `b` exists (the `Convert` machinery of
the package is not among the provided sources).  Anything converts to the
dynamic pseudo-type and the dynamic pseudo-type defers to anything;
primitives follow `primConv`; capsules only to themselves; list, set and
tuple sources convert to list and set targets element-wise; tuples to
tuples positionally at equal arity; maps to maps element-wise; objects to
maps when every attribute type converts to the map's element type; maps
to objects when the element type converts to every attribute type; and
objects to objects when the attribute names coincide and corresponding
attribute types convert. -/
def convertible (a b : CtyType) : Bool :=
  match b with
  | .dynamic => true
  | .nil => a.isDynamicType
  | .prim q =>
      match a with
      | .dynamic => true
      | .prim p => primConv p q
      | _ => false
  | .capsule j =>
      match a with
      | .dynamic => true
      | .capsule i => i == j
      | _ => false
  | .list e =>
      match a with
      | .dynamic => true
      | .list x => convertible x e
      | .set x => convertible x e
      | .tuple ts => convertibleAll ts e
      | _ => false
  | .set e =>
      match a with
      | .dynamic => true
      | .list x => convertible x e
      | .set x => convertible x e
      | .tuple ts => convertibleAll ts e
      | _ => false
  | .map e =>
      match a with
      | .dynamic => true
      | .map x => convertible x e
      | .object as_ => convertibleAttrVals as_ e
      | _ => false
  | .object es =>
      match a with
      | .dynamic => true
      | .map x => convertibleToAttrs x es
      | .object as_ => convertibleObjTo as_ es && keysContained as_ es
      | _ => false
  | .tuple es =>
      match a with
      | .dynamic => true
      | .tuple ts => convertibleTup ts es
      | _ => false
termination_by sizeOf a + sizeOf b

/-- Every element type converts to `e`. -/
def convertibleAll (ts : List CtyType) (e : CtyType) : Bool :=
  match ts with
  | [] => true
  | t :: ts => convertible t e && convertibleAll ts e
termination_by sizeOf ts + sizeOf e

/-- Positional conversion of tuple element types, requiring equal arity. -/
def convertibleTup (ts es : List CtyType) : Bool :=
  match ts, es with
  | [], [] => true
  | t :: ts, e :: es => convertible t e && convertibleTup ts es
  | _, _ => false
termination_by sizeOf ts + sizeOf es

/-- Every attribute type of an object source converts to the map element
type `e`. -/
def convertibleAttrVals (as_ : List (String × CtyType)) (e : CtyType) : Bool :=
  match as_ with
  | [] => true
  | (_, t) :: rest => convertible t e && convertibleAttrVals rest e
termination_by sizeOf as_ + sizeOf e

/-- The map element type `x` converts to every attribute type of the
object target. -/
def convertibleToAttrs (x : CtyType) (es : List (String × CtyType)) : Bool :=
  match es with
  | [] => true
  | (_, t) :: rest => convertible x t && convertibleToAttrs x rest
termination_by sizeOf x + sizeOf es

/-- Every attribute of the object target `es` is present in the object
source `as_` with a convertible attribute type. -/
def convertibleObjTo (as_ : List (String × CtyType)) (es : List (String × CtyType)) : Bool :=
  match es with
  | [] => true
  | (k, t) :: rest =>
      (match h : lookupA as_ k with
       | some s => convertible s t
       | none => false) && convertibleObjTo as_ rest
termination_by sizeOf as_ + sizeOf es
decreasing_by
  · have := sizeOf_lookupA as_ k s h
    simp only [List.cons.sizeOf_spec, Prod.mk.sizeOf_spec]
    omega
  · simp only [List.cons.sizeOf_spec, Prod.mk.sizeOf_spec]
    omega

end

mutual

/-- True when the dynamic pseudo-type occurs nowhere in the type. -/
def noDynamic : CtyType → Bool
  | .dynamic => false
  | .nil => true
  | .prim _ => true
  | .capsule _ => true
  | .list e => noDynamic e
  | .set e => noDynamic e
  | .map e => noDynamic e
  | .object as_ => noDynamicAttrs as_
  | .tuple ts => noDynamicList ts

def noDynamicAttrs : List (String × CtyType) → Bool
  | [] => true
  | (_, t) :: rest => noDynamic t && noDynamicAttrs rest

def noDynamicList : List CtyType → Bool
  | [] => true
  | t :: ts => noDynamic t && noDynamicList ts

end

theorem exceptMap_eq_ok {α β ε : Type} {f : α → β} {x : Except ε α} {y : β} :
    x.map f = Except.ok y ↔ ∃ v, x = Except.ok v ∧ f v = y := by
  cases x <;> simp [Except.map]

theorem exceptMap_eq_error {α β ε : Type} {f : α → β} {x : Except ε α} {e : ε} :
    x.map f = Except.error e ↔ x = Except.error e := by
  cases x <;> simp [Except.map]

theorem exceptBind_eq_ok {α β ε : Type} {x : Except ε α} {g : α → Except ε β} {y : β} :
    x >>= g = Except.ok y ↔ ∃ v, x = Except.ok v ∧ g v = Except.ok y := by
  cases x <;> simp [Bind.bind, Except.bind]

theorem exceptBind_eq_error {α β ε : Type} {x : Except ε α} {g : α → Except ε β} {e : ε} :
    x >>= g = Except.error e ↔
      x = Except.error e ∨ ∃ v, x = Except.ok v ∧ g v = Except.error e := by
  cases x <;> simp [Bind.bind, Except.bind]

/-- Unification never recovers from a failed running candidate. -/
theorem unifyStep_nil_left (lossy : Bool) (t : CtyType) :
    unifyStep lossy CtyType.nil t = CtyType.nil := by
  cases t <;> simp [unifyStep]

theorem unifyFold_nil (lossy : Bool) (ts : List CtyType) :
    unifyFold lossy CtyType.nil ts = CtyType.nil := by
  induction ts with
  | nil => simp [unifyFold]
  | cons t ts ih => simp [unifyFold, unifyStep_nil_left, ih]

theorem isNilType_true_iff {t : CtyType} : t.isNilType = true ↔ t = CtyType.nil := by
  cases t <;> simp [CtyType.isNilType]

theorem isNilType_false_iff {t : CtyType} : t.isNilType = false ↔ t ≠ CtyType.nil := by
  cases t <;> simp [CtyType.isNilType]

theorem isDynamicType_true_iff {t : CtyType} : t.isDynamicType = true ↔ t = CtyType.dynamic := by
  cases t <;> simp [CtyType.isDynamicType]

theorem sizeOf_pos_cty (t : CtyType) : 0 < sizeOf t := by
  cases t <;> simp +arith

theorem mkListU_eq_nil_iff {u : CtyType} : mkListU u = CtyType.nil ↔ u = CtyType.nil := by
  cases u <;> simp [mkListU]

theorem mkListU_of_ne_nil {u : CtyType} (h : u ≠ CtyType.nil) : mkListU u = CtyType.list u := by
  cases u <;> simp_all [mkListU]

theorem mkSetU_eq_nil_iff {u : CtyType} : mkSetU u = CtyType.nil ↔ u = CtyType.nil := by
  cases u <;> simp [mkSetU]

theorem mkSetU_of_ne_nil {u : CtyType} (h : u ≠ CtyType.nil) : mkSetU u = CtyType.set u := by
  cases u <;> simp_all [mkSetU]

theorem mkMapU_eq_nil_iff {u : CtyType} : mkMapU u = CtyType.nil ↔ u = CtyType.nil := by
  cases u <;> simp [mkMapU]

theorem mkMapU_of_ne_nil {u : CtyType} (h : u ≠ CtyType.nil) : mkMapU u = CtyType.map u := by
  cases u <;> simp_all [mkMapU]

/-- The least-upper-bound property of one unification step at target `e`:
whenever both inputs convert to `e` and the step succeeds, the unified
type still converts to `e`. -/
def LubAt (e : CtyType) : Prop :=
  ∀ a b : CtyType, convertible a e = true → convertible b e = true →
    unifyStep true a b ≠ CtyType.nil → convertible (unifyStep true a b) e = true

/-- Attribute-wise unification preserves the attribute-name sequence. -/
theorem unifyAttrs_keys (lossy : Bool) :
    ∀ as_ bs js, unifyAttrs lossy as_ bs = some js →
      js.map Prod.fst = as_.map Prod.fst := by
  intro as_
  induction as_ with
  | nil =>
    intro bs js h
    cases bs with
    | nil => simp [unifyAttrs] at h; subst h; simp
    | cons b bs => simp [unifyAttrs] at h
  | cons a as_ ih =>
    intro bs js h
    obtain ⟨k1, t1⟩ := a
    cases bs with
    | nil => simp [unifyAttrs] at h
    | cons b bs =>
      obtain ⟨k2, t2⟩ := b
      simp only [unifyAttrs] at h
      by_cases hk : k1 = k2
      · subst hk
        simp only [if_pos rfl] at h
        by_cases hn : (unifyStep lossy t1 t2).isNilType
        · simp [hn] at h
        · simp only [Bool.not_eq_true] at hn
          simp only [hn] at h
          cases hja : unifyAttrs lossy as_ bs with
          | none => simp [hja] at h
          | some js' =>
            simp [hja] at h
            subst h
            simp [ih bs js' hja]
      · simp [hk] at h

/-- Attribute lookup through a successful attribute-wise unification:
every attribute of the left input appears in the right input and in the
result, unified pairwise and non-nil. -/
theorem unifyAttrs_lookup (lossy : Bool) :
    ∀ as_ bs js, unifyAttrs lossy as_ bs = some js →
      ∀ k s, lookupA as_ k = some s →
        ∃ s', lookupA bs k = some s' ∧
          lookupA js k = some (unifyStep lossy s s') ∧
          unifyStep lossy s s' ≠ CtyType.nil := by
  intro as_
  induction as_ with
  | nil =>
    intro bs js h k s hs
    simp [lookupA] at hs
  | cons a as_ ih =>
    intro bs js h k s hs
    obtain ⟨k1, t1⟩ := a
    cases bs with
    | nil => simp [unifyAttrs] at h
    | cons b bs =>
      obtain ⟨k2, t2⟩ := b
      simp only [unifyAttrs] at h
      by_cases hk : k1 = k2
      · subst hk
        simp only [if_pos rfl] at h
        by_cases hn : (unifyStep lossy t1 t2).isNilType
        · simp [hn] at h
        · simp only [Bool.not_eq_true] at hn
          simp only [hn] at h
          cases hja : unifyAttrs lossy as_ bs with
          | none => simp [hja] at h
          | some js' =>
            simp [hja] at h
            subst h
            by_cases hkk : k1 = k
            · subst hkk
              simp [lookupA] at hs
              subst hs
              exact ⟨t2, by simp [lookupA], by simp [lookupA],
                isNilType_false_iff.mp hn⟩
            · simp only [lookupA, if_neg hkk] at hs
              obtain ⟨s', h1, h2, h3⟩ := ih bs js' hja k s hs
              exact ⟨s', by simp [lookupA, hkk, h1], by simp [lookupA, hkk, h2], h3⟩
      · simp [hk] at h

theorem convertibleObjTo_cons {as_ rest : List (String × CtyType)} {k : String} {t : CtyType} :
    convertibleObjTo as_ ((k, t) :: rest) = true ↔
      (∃ s, lookupA as_ k = some s ∧ convertible s t = true) ∧
      convertibleObjTo as_ rest = true := by
  simp only [convertibleObjTo, Bool.and_eq_true]
  constructor
  · rintro ⟨h1, h2⟩
    refine ⟨?_, h2⟩
    split at h1
    · rename_i s hs
      exact ⟨s, hs, h1⟩
    · exact absurd h1 (by simp)
  · rintro ⟨⟨s, hs, hst⟩, h2⟩
    refine ⟨?_, h2⟩
    split
    · rename_i s2 hs2
      rw [hs] at hs2
      cases hs2
      exact hst
    · rename_i hs2
      rw [hs] at hs2
      cases hs2

theorem keysContained_eq (as_ es : List (String × CtyType)) :
    keysContained as_ es = (as_.map Prod.fst).all fun k => (lookupA es k).isSome := by
  induction as_ with
  | nil => simp [keysContained]
  | cons a rest ih => simp_all [keysContained]

/-- Unification of tuple element lists preserves element-wise
convertibility to a fixed target. -/
theorem unifyElems_lub_all (e' : CtyType) (hl : LubAt e') :
    ∀ ts ss js, unifyElems true ts ss = some js →
      convertibleAll ts e' = true → convertibleAll ss e' = true →
      convertibleAll js e' = true := by
  intro ts
  induction ts with
  | nil =>
    intro ss js h _ _
    cases ss with
    | nil => simp [unifyElems] at h; subst h; simp [convertibleAll]
    | cons s ss => simp [unifyElems] at h
  | cons t ts ih =>
    intro ss js h hts hss
    cases ss with
    | nil => simp [unifyElems] at h
    | cons s ss =>
      simp only [unifyElems] at h
      by_cases hn : (unifyStep true t s).isNilType
      · simp [hn] at h
      · simp only [Bool.not_eq_true] at hn
        simp only [hn] at h
        cases hje : unifyElems true ts ss with
        | none => simp [hje] at h
        | some js' =>
          simp [hje] at h
          subst h
          simp only [convertibleAll, Bool.and_eq_true] at hts hss ⊢
          exact ⟨hl t s hts.1 hss.1 (isNilType_false_iff.mp hn),
            ih ss js' hje hts.2 hss.2⟩

/-- Unification of tuple element lists preserves position-wise
convertibility to a tuple target. -/
theorem unifyElems_lub_tup :
    ∀ es : List CtyType, (∀ e₀, sizeOf e₀ < sizeOf es → LubAt e₀) →
    ∀ ts ss js, unifyElems true ts ss = some js →
      convertibleTup ts es = true → convertibleTup ss es = true →
      convertibleTup js es = true := by
  intro es
  induction es with
  | nil =>
    intro _ ts ss js h hts hss
    cases ts with
    | cons t ts => simp [convertibleTup] at hts
    | nil =>
      cases ss with
      | cons s ss => simp [convertibleTup] at hss
      | nil => simp [unifyElems] at h; subst h; simp [convertibleTup]
  | cons e es ih =>
    intro IH ts ss js h hts hss
    cases ts with
    | nil => simp [convertibleTup] at hts
    | cons t ts =>
      cases ss with
      | nil => simp [convertibleTup] at hss
      | cons s ss =>
        simp only [unifyElems] at h
        by_cases hn : (unifyStep true t s).isNilType
        · simp [hn] at h
        · simp only [Bool.not_eq_true] at hn
          simp only [hn] at h
          cases hje : unifyElems true ts ss with
          | none => simp [hje] at h
          | some js' =>
            simp [hje] at h
            subst h
            simp only [convertibleTup, Bool.and_eq_true] at hts hss ⊢
            refine ⟨?_, ?_⟩
            · have he : sizeOf e < sizeOf (e :: es) := by
                simp only [List.cons.sizeOf_spec]; omega
              exact IH e he t s hts.1 hss.1 (isNilType_false_iff.mp hn)
            · refine ih (fun e₀ h₀ => IH e₀ ?_) ts ss js' hje hts.2 hss.2
              simp only [List.cons.sizeOf_spec]
              omega

/-- Unification of object attribute lists preserves attribute-wise
convertibility to a fixed map element target. -/
theorem unifyAttrs_lub_vals (e' : CtyType) (hl : LubAt e') :
    ∀ as_ bs js, unifyAttrs true as_ bs = some js →
      convertibleAttrVals as_ e' = true → convertibleAttrVals bs e' = true →
      convertibleAttrVals js e' = true := by
  intro as_
  induction as_ with
  | nil =>
    intro bs js h _ _
    cases bs with
    | nil => simp [unifyAttrs] at h; subst h; simp [convertibleAttrVals]
    | cons b bs => simp [unifyAttrs] at h
  | cons a as_ ih =>
    intro bs js h has hbs
    obtain ⟨k1, t1⟩ := a
    cases bs with
    | nil => simp [unifyAttrs] at h
    | cons b bs =>
      obtain ⟨k2, t2⟩ := b
      simp only [unifyAttrs] at h
      by_cases hk : k1 = k2
      · subst hk
        simp only [if_pos rfl] at h
        by_cases hn : (unifyStep true t1 t2).isNilType
        · simp [hn] at h
        · simp only [Bool.not_eq_true] at hn
          simp only [hn] at h
          cases hja : unifyAttrs true as_ bs with
          | none => simp [hja] at h
          | some js' =>
            simp [hja] at h
            subst h
            simp only [convertibleAttrVals, Bool.and_eq_true] at has hbs ⊢
            exact ⟨hl t1 t2 has.1 hbs.1 (isNilType_false_iff.mp hn),
              ih bs js' hja has.2 hbs.2⟩
      · simp [hk] at h

/-- One unification step preserves convertibility of a map element type to
every attribute of an object target. -/
theorem toAttrs_lub :
    ∀ es : List (String × CtyType), (∀ t₀, sizeOf t₀ < sizeOf es → LubAt t₀) →
    ∀ x y, convertibleToAttrs x es = true → convertibleToAttrs y es = true →
      unifyStep true x y ≠ CtyType.nil →
      convertibleToAttrs (unifyStep true x y) es = true := by
  intro es
  induction es with
  | nil => intro _ x y _ _ _; simp [convertibleToAttrs]
  | cons a rest ih =>
    intro IH x y hx hy hne
    obtain ⟨k, t⟩ := a
    simp only [convertibleToAttrs, Bool.and_eq_true] at hx hy ⊢
    refine ⟨?_, ?_⟩
    · have ht : sizeOf t < sizeOf ((k, t) :: rest) := by
        simp only [List.cons.sizeOf_spec, Prod.mk.sizeOf_spec]; omega
      exact IH t ht x y hx.1 hy.1 hne
    · refine ih (fun t₀ h₀ => IH t₀ ?_) x y hx.2 hy.2 hne
      simp only [List.cons.sizeOf_spec]
      omega

/-- A successful attribute-wise unification keeps every attribute needed
by an object target convertible. -/
theorem objTo_lub :
    ∀ es : List (String × CtyType), (∀ t₀, sizeOf t₀ < sizeOf es → LubAt t₀) →
    ∀ as_ bs js, unifyAttrs true as_ bs = some js →
      convertibleObjTo as_ es = true → convertibleObjTo bs es = true →
      convertibleObjTo js es = true := by
  intro es
  induction es with
  | nil => intro _ as_ bs js _ _ _; simp [convertibleObjTo]
  | cons a rest ih =>
    intro IH as_ bs js h ha hb
    obtain ⟨k, t⟩ := a
    rw [convertibleObjTo_cons] at ha hb ⊢
    obtain ⟨⟨s, hs, hst⟩, ha2⟩ := ha
    obtain ⟨⟨s2, hs2, hst2⟩, hb2⟩ := hb
    obtain ⟨s', hbs', hjs', hnn⟩ := unifyAttrs_lookup true as_ bs js h k s hs
    have hss : s2 = s' := by
      rw [hbs'] at hs2
      exact (Option.some.injEq _ _).mp hs2.symm
    rw [hss] at hst2
    refine ⟨⟨unifyStep true s s', hjs', ?_⟩, ?_⟩
    · have ht : sizeOf t < sizeOf ((k, t) :: rest) := by
        simp only [List.cons.sizeOf_spec, Prod.mk.sizeOf_spec]; omega
      exact IH t ht s s' hst hst2 hnn
    · refine ih (fun t₀ h₀ => IH t₀ ?_) as_ bs js h ha2 hb2
      simp only [List.cons.sizeOf_spec]
      omega

/-- One unification step is an upper bound for convertibility: proved by
induction on the size of the target type. -/
theorem step_lub_aux : ∀ n : Nat, ∀ e : CtyType, sizeOf e ≤ n → LubAt e := by
  intro n
  induction n with
  | zero =>
    intro e he
    exact absurd he (by have := sizeOf_pos_cty e; omega)
  | succ n ih =>
    intro e he a b ha hb hne
    cases a with
    | dynamic => simpa [unifyStep] using hb
    | nil =>
      rw [unifyStep_nil_left] at hne
      exact absurd rfl hne
    | prim p =>
      cases b with
      | dynamic => simpa [unifyStep] using ha
      | nil => simp [unifyStep] at hne
      | prim q =>
        simp only [unifyStep] at hne ⊢
        by_cases hpq : p = q
        · subst hpq
          simpa using ha
        · simp only [if_neg hpq, if_pos rfl] at hne ⊢
          cases e with
          | dynamic => simp [convertible]
          | nil => simp [convertible, CtyType.isDynamicType] at ha
          | prim r =>
            simp only [convertible] at ha hb ⊢
            cases p <;> cases q <;> cases r <;> simp_all [convertible, primConv]
          | capsule j => simp [convertible] at ha
          | list e1 => simp [convertible] at ha
          | set e1 => simp [convertible] at ha
          | map e1 => simp [convertible] at ha
          | object es => simp [convertible] at ha
          | tuple es => simp [convertible] at ha
      | capsule j => simp [unifyStep] at hne
      | list y => simp [unifyStep] at hne
      | set y => simp [unifyStep] at hne
      | map y => simp [unifyStep] at hne
      | object bs => simp [unifyStep] at hne
      | tuple ss => simp [unifyStep] at hne
    | capsule i =>
      cases b with
      | dynamic => simpa [unifyStep] using ha
      | nil => simp [unifyStep] at hne
      | prim q => simp [unifyStep] at hne
      | capsule j =>
        simp only [unifyStep] at hne ⊢
        by_cases hij : i = j
        · subst hij
          simpa using ha
        · simp [hij] at hne
      | list y => simp [unifyStep] at hne
      | set y => simp [unifyStep] at hne
      | map y => simp [unifyStep] at hne
      | object bs => simp [unifyStep] at hne
      | tuple ss => simp [unifyStep] at hne
    | list x =>
      cases b with
      | dynamic => simpa [unifyStep] using ha
      | nil => simp [unifyStep] at hne
      | prim q => simp [unifyStep] at hne
      | capsule j => simp [unifyStep] at hne
      | list y =>
        simp only [unifyStep] at hne ⊢
        have hxy : unifyStep true x y ≠ CtyType.nil := by
          intro hc
          rw [hc] at hne
          simp [mkListU] at hne
        rw [mkListU_of_ne_nil hxy]
        cases e with
        | dynamic => simp [convertible]
        | nil => simp [convertible, CtyType.isDynamicType] at ha
        | prim r => simp [convertible] at ha
        | capsule j => simp [convertible] at ha
        | list e1 =>
          simp only [convertible] at ha hb ⊢
          refine ih e1 ?_ x y ha hb hxy
          simp only [CtyType.list.sizeOf_spec] at he
          omega
        | set e1 =>
          simp only [convertible] at ha hb ⊢
          refine ih e1 ?_ x y ha hb hxy
          simp only [CtyType.set.sizeOf_spec] at he
          omega
        | map e1 => simp [convertible] at ha
        | object es => simp [convertible] at ha
        | tuple es => simp [convertible] at ha
      | set y =>
        simp only [unifyStep, eq_self_iff_true, if_true] at hne ⊢
        have hxy : unifyStep true x y ≠ CtyType.nil := by
          intro hc
          rw [hc] at hne
          simp [mkListU] at hne
        rw [mkListU_of_ne_nil hxy]
        cases e with
        | dynamic => simp [convertible]
        | nil => simp [convertible, CtyType.isDynamicType] at ha
        | prim r => simp [convertible] at ha
        | capsule j => simp [convertible] at ha
        | list e1 =>
          simp only [convertible] at ha hb ⊢
          refine ih e1 ?_ x y ha hb hxy
          simp only [CtyType.list.sizeOf_spec] at he
          omega
        | set e1 =>
          simp only [convertible] at ha hb ⊢
          refine ih e1 ?_ x y ha hb hxy
          simp only [CtyType.set.sizeOf_spec] at he
          omega
        | map e1 => simp [convertible] at ha
        | object es => simp [convertible] at ha
        | tuple es => simp [convertible] at ha
      | map y => simp [unifyStep] at hne
      | object bs => simp [unifyStep] at hne
      | tuple ss => simp [unifyStep] at hne
    | set x =>
      cases b with
      | dynamic => simpa [unifyStep] using ha
      | nil => simp [unifyStep] at hne
      | prim q => simp [unifyStep] at hne
      | capsule j => simp [unifyStep] at hne
      | list y =>
        simp only [unifyStep, eq_self_iff_true, if_true] at hne ⊢
        have hxy : unifyStep true x y ≠ CtyType.nil := by
          intro hc
          rw [hc] at hne
          simp [mkListU] at hne
        rw [mkListU_of_ne_nil hxy]
        cases e with
        | dynamic => simp [convertible]
        | nil => simp [convertible, CtyType.isDynamicType] at ha
        | prim r => simp [convertible] at ha
        | capsule j => simp [convertible] at ha
        | list e1 =>
          simp only [convertible] at ha hb ⊢
          refine ih e1 ?_ x y ha hb hxy
          simp only [CtyType.list.sizeOf_spec] at he
          omega
        | set e1 =>
          simp only [convertible] at ha hb ⊢
          refine ih e1 ?_ x y ha hb hxy
          simp only [CtyType.set.sizeOf_spec] at he
          omega
        | map e1 => simp [convertible] at ha
        | object es => simp [convertible] at ha
        | tuple es => simp [convertible] at ha
      | set y =>
        simp only [unifyStep] at hne ⊢
        have hxy : unifyStep true x y ≠ CtyType.nil := by
          intro hc
          rw [hc] at hne
          simp [mkSetU] at hne
        rw [mkSetU_of_ne_nil hxy]
        cases e with
        | dynamic => simp [convertible]
        | nil => simp [convertible, CtyType.isDynamicType] at ha
        | prim r => simp [convertible] at ha
        | capsule j => simp [convertible] at ha
        | list e1 =>
          simp only [convertible] at ha hb ⊢
          refine ih e1 ?_ x y ha hb hxy
          simp only [CtyType.list.sizeOf_spec] at he
          omega
        | set e1 =>
          simp only [convertible] at ha hb ⊢
          refine ih e1 ?_ x y ha hb hxy
          simp only [CtyType.set.sizeOf_spec] at he
          omega
        | map e1 => simp [convertible] at ha
        | object es => simp [convertible] at ha
        | tuple es => simp [convertible] at ha
      | map y => simp [unifyStep] at hne
      | object bs => simp [unifyStep] at hne
      | tuple ss => simp [unifyStep] at hne
    | map x =>
      cases b with
      | dynamic => simpa [unifyStep] using ha
      | nil => simp [unifyStep] at hne
      | prim q => simp [unifyStep] at hne
      | capsule j => simp [unifyStep] at hne
      | list y => simp [unifyStep] at hne
      | set y => simp [unifyStep] at hne
      | map y =>
        simp only [unifyStep] at hne ⊢
        have hxy : unifyStep true x y ≠ CtyType.nil := by
          intro hc
          rw [hc] at hne
          simp [mkMapU] at hne
        rw [mkMapU_of_ne_nil hxy]
        cases e with
        | dynamic => simp [convertible]
        | nil => simp [convertible, CtyType.isDynamicType] at ha
        | prim r => simp [convertible] at ha
        | capsule j => simp [convertible] at ha
        | list e1 => simp [convertible] at ha
        | set e1 => simp [convertible] at ha
        | map e1 =>
          simp only [convertible] at ha hb ⊢
          refine ih e1 ?_ x y ha hb hxy
          simp only [CtyType.map.sizeOf_spec] at he
          omega
        | object es =>
          simp only [convertible] at ha hb ⊢
          refine toAttrs_lub es ?_ x y ha hb hxy
          intro t₀ h₀
          refine ih t₀ ?_
          simp only [CtyType.object.sizeOf_spec] at he
          omega
        | tuple es => simp [convertible] at ha
      | object bs => simp [unifyStep] at hne
      | tuple ss => simp [unifyStep] at hne
    | object as_ =>
      cases b with
      | dynamic => simpa [unifyStep] using ha
      | nil => simp [unifyStep] at hne
      | prim q => simp [unifyStep] at hne
      | capsule j => simp [unifyStep] at hne
      | list y => simp [unifyStep] at hne
      | set y => simp [unifyStep] at hne
      | map y => simp [unifyStep] at hne
      | object bs =>
        simp only [unifyStep] at hne ⊢
        cases hja : unifyAttrs true as_ bs with
        | none => simp [hja] at hne
        | some js =>
          simp only [hja]
          cases e with
          | dynamic => simp [convertible]
          | nil => simp [convertible, CtyType.isDynamicType] at ha
          | prim r => simp [convertible] at ha
          | capsule j => simp [convertible] at ha
          | list e1 => simp [convertible] at ha
          | set e1 => simp [convertible] at ha
          | map e1 =>
            simp only [convertible] at ha hb ⊢
            refine unifyAttrs_lub_vals e1 ?_ as_ bs js hja ha hb
            refine ih e1 ?_
            simp only [CtyType.map.sizeOf_spec] at he
            omega
          | object es =>
            simp only [convertible, Bool.and_eq_true] at ha hb ⊢
            refine ⟨?_, ?_⟩
            · refine objTo_lub es ?_ as_ bs js hja ha.1 hb.1
              intro t₀ h₀
              refine ih t₀ ?_
              simp only [CtyType.object.sizeOf_spec] at he
              omega
            · rw [keysContained_eq, unifyAttrs_keys true as_ bs js hja,
                ← keysContained_eq]
              exact ha.2
          | tuple es => simp [convertible] at ha
      | tuple ss => simp [unifyStep] at hne
    | tuple ts =>
      cases b with
      | dynamic => simpa [unifyStep] using ha
      | nil => simp [unifyStep] at hne
      | prim q => simp [unifyStep] at hne
      | capsule j => simp [unifyStep] at hne
      | list y => simp [unifyStep] at hne
      | set y => simp [unifyStep] at hne
      | map y => simp [unifyStep] at hne
      | object bs => simp [unifyStep] at hne
      | tuple ss =>
        simp only [unifyStep] at hne ⊢
        cases hje : unifyElems true ts ss with
        | none => simp [hje] at hne
        | some js =>
          simp only [hje]
          cases e with
          | dynamic => simp [convertible]
          | nil => simp [convertible, CtyType.isDynamicType] at ha
          | prim r => simp [convertible] at ha
          | capsule j => simp [convertible] at ha
          | list e1 =>
            simp only [convertible] at ha hb ⊢
            refine unifyElems_lub_all e1 ?_ ts ss js hje ha hb
            refine ih e1 ?_
            simp only [CtyType.list.sizeOf_spec] at he
            omega
          | set e1 =>
            simp only [convertible] at ha hb ⊢
            refine unifyElems_lub_all e1 ?_ ts ss js hje ha hb
            refine ih e1 ?_
            simp only [CtyType.set.sizeOf_spec] at he
            omega
          | map e1 => simp [convertible] at ha
          | object es => simp [convertible] at ha
          | tuple es =>
            simp only [convertible] at ha hb ⊢
            refine unifyElems_lub_tup es ?_ ts ss js hje ha hb
            intro e₀ h₀
            refine ih e₀ ?_
            simp only [CtyType.tuple.sizeOf_spec] at he
            omega

/-- The least-upper-bound property of a lossy unification step, at every
target type. -/
theorem step_lub (e : CtyType) : LubAt e :=
  step_lub_aux (sizeOf e) e le_rfl

/-- Folding unification steps over types that all convert to `e` yields a
type that still converts to `e` (or fails). -/
theorem fold_lub (e : CtyType) :
    ∀ ts acc, convertible acc e = true → convertibleAll ts e = true →
      unifyFold true acc ts ≠ CtyType.nil →
      convertible (unifyFold true acc ts) e = true := by
  intro ts
  induction ts with
  | nil => intro acc ha _ _; simpa [unifyFold] using ha
  | cons t ts ih =>
    intro acc ha hall hne
    simp only [convertibleAll, Bool.and_eq_true] at hall
    simp only [unifyFold] at hne ⊢
    by_cases hstep : unifyStep true acc t = CtyType.nil
    · rw [hstep, unifyFold_nil] at hne
      exact absurd rfl hne
    · exact ih (unifyStep true acc t)
        (step_lub e acc t ha hall.1 hstep) hall.2 hne

/-- The unsafe unification of types that all convert to `e` either fails
or produces a type that converts to `e`. -/
theorem unify_conv (e : CtyType) (ts : List CtyType)
    (h : convertibleAll ts e = true) :
    unify ts true = CtyType.nil ∨ convertible (unify ts true) e = true := by
  cases ts with
  | nil => left; simp [unify]
  | cons t ts =>
    by_cases hu : unifyFold true t ts = CtyType.nil
    · left; simp [unify, hu]
    · right
      simp only [convertibleAll, Bool.and_eq_true] at h
      simpa [unify] using fold_lub e ts t h.1 h.2 hu

theorem convertibleAttrVals_eq_all (iattrs : List (String × CtyType)) (e : CtyType) :
    convertibleAttrVals iattrs e = convertibleAll (iattrs.map Prod.snd) e := by
  induction iattrs with
  | nil => simp [convertibleAttrVals, convertibleAll]
  | cons a rest ih =>
    obtain ⟨k, t⟩ := a
    simp [convertibleAttrVals, convertibleAll, ih]

/-- The identity property of `dynamicReplace` at a placeholder-free target
`tout`: for every convert-compatible source the target comes back
unchanged. -/
def IdAt (tout : CtyType) : Prop :=
  ∀ tin, convertible tin tout = true → noDynamic tout = true →
    dynamicReplace tin tout = Except.ok tout

theorem replaceAttrsFromMap_id :
    ∀ oattrs : List (String × CtyType),
      (∀ t₀, sizeOf t₀ < sizeOf oattrs → IdAt t₀) →
      ∀ ie, convertibleToAttrs ie oattrs = true → noDynamicAttrs oattrs = true →
        replaceAttrsFromMap ie oattrs = Except.ok oattrs := by
  intro oattrs
  induction oattrs with
  | nil => intro _ ie _ _; simp [replaceAttrsFromMap]
  | cons a rest ih =>
    intro IH ie hconv hnd
    obtain ⟨k, t⟩ := a
    simp only [convertibleToAttrs, Bool.and_eq_true] at hconv
    simp only [noDynamicAttrs, Bool.and_eq_true] at hnd
    have ht : sizeOf t < sizeOf ((k, t) :: rest) := by
      simp only [List.cons.sizeOf_spec, Prod.mk.sizeOf_spec]; omega
    have h1 : dynamicReplace ie t = Except.ok t := IH t ht ie hconv.1 hnd.1
    have h2 : replaceAttrsFromMap ie rest = Except.ok rest := by
      refine ih (fun t₀ h₀ => IH t₀ ?_) ie hconv.2 hnd.2
      simp only [List.cons.sizeOf_spec]
      omega
    simp [replaceAttrsFromMap, h1, h2, bind, Except.bind, pure, Except.pure]

theorem replaceAttrs_id :
    ∀ oattrs : List (String × CtyType),
      (∀ t₀, sizeOf t₀ < sizeOf oattrs → IdAt t₀) →
      ∀ iattrs, convertibleObjTo iattrs oattrs = true →
        noDynamicAttrs oattrs = true →
        replaceAttrs iattrs oattrs = Except.ok oattrs := by
  intro oattrs
  induction oattrs with
  | nil => intro _ iattrs _ _; simp [replaceAttrs]
  | cons a rest ih =>
    intro IH iattrs hconv hnd
    obtain ⟨k, t⟩ := a
    rw [convertibleObjTo_cons] at hconv
    obtain ⟨⟨s, hs, hst⟩, hrest⟩ := hconv
    simp only [noDynamicAttrs, Bool.and_eq_true] at hnd
    have ht : sizeOf t < sizeOf ((k, t) :: rest) := by
      simp only [List.cons.sizeOf_spec, Prod.mk.sizeOf_spec]; omega
    have h1 : dynamicReplace s t = Except.ok t := IH t ht s hst hnd.1
    have h2 : replaceAttrs iattrs rest = Except.ok rest := by
      refine ih (fun t₀ h₀ => IH t₀ ?_) iattrs hrest hnd.2
      simp only [List.cons.sizeOf_spec]
      omega
    simp [replaceAttrs, hs, h1, h2, bind, Except.bind, pure, Except.pure]

theorem replaceTupleElems_id :
    ∀ oes : List CtyType,
      (∀ t₀, sizeOf t₀ < sizeOf oes → IdAt t₀) →
      ∀ tes, convertibleTup tes oes = true → noDynamicList oes = true →
        replaceTupleElems tes oes = Except.ok oes := by
  intro oes
  induction oes with
  | nil =>
    intro _ tes hconv _
    cases tes with
    | nil => simp [replaceTupleElems]
    | cons t tes => simp [replaceTupleElems]
  | cons o oes ih =>
    intro IH tes hconv hnd
    cases tes with
    | nil => simp [convertibleTup] at hconv
    | cons t tes =>
      simp only [convertibleTup, Bool.and_eq_true] at hconv
      simp only [noDynamicList, Bool.and_eq_true] at hnd
      have ho : sizeOf o < sizeOf (o :: oes) := by
        simp only [List.cons.sizeOf_spec]; omega
      have h1 : dynamicReplace t o = Except.ok o := IH o ho t hconv.1 hnd.1
      have h2 : replaceTupleElems tes oes = Except.ok oes := by
        refine ih (fun t₀ h₀ => IH t₀ ?_) tes hconv.2 hnd.2
        simp only [List.cons.sizeOf_spec]
        omega
      simp [replaceTupleElems, h1, h2, bind, Except.bind, pure, Except.pure]

/-- The short-circuit of `dynamicReplace` when the source type is the
dynamic pseudo-type: `out` is the best it can do. -/
theorem dR_dyn_left (tout : CtyType) :
    dynamicReplace CtyType.dynamic tout = Except.ok tout := by
  rw [dynamicReplace.eq_def]
  simp [CtyType.isDynamicType]

/-- The short-circuit of `dynamicReplace` when the source type is nil. -/
theorem dR_nilT_left (tout : CtyType) :
    dynamicReplace CtyType.nil tout = Except.ok tout := by
  rw [dynamicReplace.eq_def]
  simp [CtyType.isNilType]

/-- The identity property of `dynamicReplace` on placeholder-free targets,
by induction on the size of the target type. -/
theorem dR_id_aux : ∀ n : Nat, ∀ tout, sizeOf tout ≤ n → IdAt tout := by
  intro n
  induction n with
  | zero =>
    intro tout he
    exact absurd he (by have := sizeOf_pos_cty tout; omega)
  | succ n ih =>
    intro tout he tin hconv hnd
    cases tout with
    | dynamic => simp [noDynamic] at hnd
    | nil =>
      have htin : tin = CtyType.dynamic :=
        isDynamicType_true_iff.mp (by simpa [convertible] using hconv)
      subst htin
      simp [dynamicReplace, CtyType.isDynamicType]
    | prim p =>
      cases tin <;>
        simp [dynamicReplace, CtyType.isDynamicType, CtyType.isNilType]
    | capsule c =>
      cases tin <;>
        simp [dynamicReplace, CtyType.isDynamicType, CtyType.isNilType]
    | map oe =>
      have hoe : sizeOf oe ≤ n := by
        simp only [CtyType.map.sizeOf_spec] at he; omega
      cases tin with
      | dynamic => exact dR_dyn_left _
      | nil => exact dR_nilT_left _
      | prim p => simp [convertible] at hconv
      | capsule c => simp [convertible] at hconv
      | list e1 => simp [convertible] at hconv
      | set e1 => simp [convertible] at hconv
      | tuple ts => simp [convertible] at hconv
      | map ie =>
        simp only [convertible] at hconv
        simp only [noDynamic] at hnd
        have hr := ih oe hoe ie hconv hnd
        simp [dynamicReplace, CtyType.isDynamicType, CtyType.isNilType, hr,
          Except.map]
      | object iattrs =>
        simp only [convertible] at hconv
        simp only [noDynamic] at hnd
        rw [convertibleAttrVals_eq_all] at hconv
        rcases unify_conv oe _ hconv with hu | hu
        · simp [dynamicReplace, CtyType.isDynamicType, CtyType.isNilType, hu,
            dR_nilT_left, Except.map]
        · have hr := ih oe hoe _ hu hnd
          simp [dynamicReplace, CtyType.isDynamicType, CtyType.isNilType, hr,
            Except.map]
    | object oattrs =>
      have hIH : ∀ t₀, sizeOf t₀ < sizeOf oattrs → IdAt t₀ := by
        intro t₀ h₀
        refine ih t₀ ?_
        simp only [CtyType.object.sizeOf_spec] at he
        omega
      cases tin with
      | dynamic => exact dR_dyn_left _
      | nil => exact dR_nilT_left _
      | prim p => simp [convertible] at hconv
      | capsule c => simp [convertible] at hconv
      | list e1 => simp [convertible] at hconv
      | set e1 => simp [convertible] at hconv
      | tuple ts => simp [convertible] at hconv
      | map ie =>
        simp only [convertible] at hconv
        simp only [noDynamic] at hnd
        have hr := replaceAttrsFromMap_id oattrs hIH ie hconv hnd
        simp [dynamicReplace, CtyType.isDynamicType, CtyType.isNilType, hr,
          Except.map]
      | object iattrs =>
        simp only [convertible, Bool.and_eq_true] at hconv
        simp only [noDynamic] at hnd
        have hr := replaceAttrs_id oattrs hIH iattrs hconv.1 hnd
        simp [dynamicReplace, CtyType.isDynamicType, CtyType.isNilType, hr,
          Except.map]
    | set oe =>
      have hoe : sizeOf oe ≤ n := by
        simp only [CtyType.set.sizeOf_spec] at he; omega
      cases tin with
      | dynamic => exact dR_dyn_left _
      | nil => exact dR_nilT_left _
      | prim p => simp [convertible] at hconv
      | capsule c => simp [convertible] at hconv
      | map e1 => simp [convertible] at hconv
      | object iattrs => simp [convertible] at hconv
      | list ie =>
        simp only [convertible] at hconv
        simp only [noDynamic] at hnd
        have hr := ih oe hoe ie hconv hnd
        simp [dynamicReplace, CtyType.isDynamicType, CtyType.isNilType, hr,
          Except.map]
      | set ie =>
        simp only [convertible] at hconv
        simp only [noDynamic] at hnd
        have hr := ih oe hoe ie hconv hnd
        simp [dynamicReplace, CtyType.isDynamicType, CtyType.isNilType, hr,
          Except.map]
      | tuple tes =>
        simp only [convertible] at hconv
        simp only [noDynamic] at hnd
        rcases unify_conv oe _ hconv with hu | hu
        · simp [dynamicReplace, CtyType.isDynamicType, CtyType.isNilType, hu,
            dR_nilT_left, Except.map]
        · have hr := ih oe hoe _ hu hnd
          simp [dynamicReplace, CtyType.isDynamicType, CtyType.isNilType, hr,
            Except.map]
    | list oe =>
      have hoe : sizeOf oe ≤ n := by
        simp only [CtyType.list.sizeOf_spec] at he; omega
      cases tin with
      | dynamic => exact dR_dyn_left _
      | nil => exact dR_nilT_left _
      | prim p => simp [convertible] at hconv
      | capsule c => simp [convertible] at hconv
      | map e1 => simp [convertible] at hconv
      | object iattrs => simp [convertible] at hconv
      | list ie =>
        simp only [convertible] at hconv
        simp only [noDynamic] at hnd
        have hr := ih oe hoe ie hconv hnd
        simp [dynamicReplace, CtyType.isDynamicType, CtyType.isNilType, hr,
          Except.map]
      | set ie =>
        simp only [convertible] at hconv
        simp only [noDynamic] at hnd
        have hr := ih oe hoe ie hconv hnd
        simp [dynamicReplace, CtyType.isDynamicType, CtyType.isNilType, hr,
          Except.map]
      | tuple tes =>
        simp only [convertible] at hconv
        simp only [noDynamic] at hnd
        rcases unify_conv oe _ hconv with hu | hu
        · simp [dynamicReplace, CtyType.isDynamicType, CtyType.isNilType, hu,
            dR_nilT_left, Except.map]
        · have hr := ih oe hoe _ hu hnd
          simp [dynamicReplace, CtyType.isDynamicType, CtyType.isNilType, hr,
            Except.map]
    | tuple oes =>
      have hIH : ∀ t₀, sizeOf t₀ < sizeOf oes → IdAt t₀ := by
        intro t₀ h₀
        refine ih t₀ ?_
        simp only [CtyType.tuple.sizeOf_spec] at he
        omega
      cases tin with
      | dynamic => exact dR_dyn_left _
      | nil => exact dR_nilT_left _
      | prim p => simp [convertible] at hconv
      | capsule c => simp [convertible] at hconv
      | map e1 => simp [convertible] at hconv
      | object iattrs => simp [convertible] at hconv
      | list e1 => simp [convertible] at hconv
      | set e1 => simp [convertible] at hconv
      | tuple tes =>
        simp only [convertible] at hconv
        simp only [noDynamic] at hnd
        have hr := replaceTupleElems_id oes hIH tes hconv hnd
        simp [dynamicReplace, CtyType.isDynamicType, CtyType.isNilType, hr,
          Except.map]

/-- Identity of `dynamicReplace` on placeholder-free targets. -/
theorem dR_identity (tin tout : CtyType) (hconv : convertible tin tout = true)
    (hnd : noDynamic tout = true) : dynamicReplace tin tout = Except.ok tout :=
  dR_id_aux (sizeOf tout) tout le_rfl tin hconv hnd

/-- Totality of `dynamicReplace` at target `tout` under
convert-compatibility: a type is always returned, never a fault. -/
def TotalAt (tout : CtyType) : Prop :=
  ∀ tin, convertible tin tout = true →
    ∃ r, dynamicReplace tin tout = Except.ok r

theorem replaceAttrsFromMap_total :
    ∀ oattrs : List (String × CtyType),
      (∀ t₀, sizeOf t₀ < sizeOf oattrs → TotalAt t₀) →
      ∀ ie, convertibleToAttrs ie oattrs = true →
        ∃ rs, replaceAttrsFromMap ie oattrs = Except.ok rs := by
  intro oattrs
  induction oattrs with
  | nil => intro _ ie _; exact ⟨[], by simp [replaceAttrsFromMap]⟩
  | cons a rest ih =>
    intro IH ie hconv
    obtain ⟨k, t⟩ := a
    simp only [convertibleToAttrs, Bool.and_eq_true] at hconv
    have ht : sizeOf t < sizeOf ((k, t) :: rest) := by
      simp only [List.cons.sizeOf_spec, Prod.mk.sizeOf_spec]; omega
    obtain ⟨r, hr⟩ := IH t ht ie hconv.1
    obtain ⟨rs, hrs⟩ := ih (fun t₀ h₀ => IH t₀ (by
      simp only [List.cons.sizeOf_spec]; omega)) ie hconv.2
    exact ⟨(k, r) :: rs,
      by simp [replaceAttrsFromMap, hr, hrs, bind, Except.bind, pure, Except.pure]⟩

theorem replaceAttrs_total :
    ∀ oattrs : List (String × CtyType),
      (∀ t₀, sizeOf t₀ < sizeOf oattrs → TotalAt t₀) →
      ∀ iattrs, convertibleObjTo iattrs oattrs = true →
        ∃ rs, replaceAttrs iattrs oattrs = Except.ok rs := by
  intro oattrs
  induction oattrs with
  | nil => intro _ iattrs _; exact ⟨[], by simp [replaceAttrs]⟩
  | cons a rest ih =>
    intro IH iattrs hconv
    obtain ⟨k, t⟩ := a
    rw [convertibleObjTo_cons] at hconv
    obtain ⟨⟨s, hs, hst⟩, hrest⟩ := hconv
    have ht : sizeOf t < sizeOf ((k, t) :: rest) := by
      simp only [List.cons.sizeOf_spec, Prod.mk.sizeOf_spec]; omega
    obtain ⟨r, hr⟩ := IH t ht s hst
    obtain ⟨rs, hrs⟩ := ih (fun t₀ h₀ => IH t₀ (by
      simp only [List.cons.sizeOf_spec]; omega)) iattrs hrest
    exact ⟨(k, r) :: rs,
      by simp [replaceAttrs, hs, hr, hrs, bind, Except.bind, pure, Except.pure]⟩

theorem replaceTupleElems_total :
    ∀ oes : List CtyType,
      (∀ t₀, sizeOf t₀ < sizeOf oes → TotalAt t₀) →
      ∀ tes, convertibleTup tes oes = true →
        ∃ rs, replaceTupleElems tes oes = Except.ok rs := by
  intro oes
  induction oes with
  | nil =>
    intro _ tes hconv
    cases tes with
    | nil => exact ⟨[], by simp [replaceTupleElems]⟩
    | cons t tes => exact ⟨[], by simp [replaceTupleElems]⟩
  | cons o oes ih =>
    intro IH tes hconv
    cases tes with
    | nil => simp [convertibleTup] at hconv
    | cons t tes =>
      simp only [convertibleTup, Bool.and_eq_true] at hconv
      have ho : sizeOf o < sizeOf (o :: oes) := by
        simp only [List.cons.sizeOf_spec]; omega
      obtain ⟨r, hr⟩ := IH o ho t hconv.1
      obtain ⟨rs, hrs⟩ := ih (fun t₀ h₀ => IH t₀ (by
        simp only [List.cons.sizeOf_spec]; omega)) tes hconv.2
      exact ⟨r :: rs,
        by simp [replaceTupleElems, hr, hrs, bind, Except.bind, pure, Except.pure]⟩

/-- Totality of `dynamicReplace` under convert-compatibility, by induction
on the size of the target type. -/
theorem dR_total_aux : ∀ n : Nat, ∀ tout, sizeOf tout ≤ n → TotalAt tout := by
  intro n
  induction n with
  | zero =>
    intro tout he
    exact absurd he (by have := sizeOf_pos_cty tout; omega)
  | succ n ih =>
    intro tout he tin hconv
    cases tout with
    | dynamic =>
      cases tin <;>
        exact ⟨_, by rw [dynamicReplace.eq_def]; rfl⟩
    | nil =>
      have htin : tin = CtyType.dynamic :=
        isDynamicType_true_iff.mp (by simpa [convertible] using hconv)
      subst htin
      exact ⟨_, dR_dyn_left _⟩
    | prim p =>
      cases tin <;>
        exact ⟨_, by rw [dynamicReplace.eq_def]; rfl⟩
    | capsule c =>
      cases tin <;>
        exact ⟨_, by rw [dynamicReplace.eq_def]; rfl⟩
    | map oe =>
      have hoe : sizeOf oe ≤ n := by
        simp only [CtyType.map.sizeOf_spec] at he; omega
      cases tin with
      | dynamic => exact ⟨_, dR_dyn_left _⟩
      | nil => exact ⟨_, dR_nilT_left _⟩
      | prim p => simp [convertible] at hconv
      | capsule c => simp [convertible] at hconv
      | list e1 => simp [convertible] at hconv
      | set e1 => simp [convertible] at hconv
      | tuple ts => simp [convertible] at hconv
      | map ie =>
        simp only [convertible] at hconv
        obtain ⟨r, hr⟩ := ih oe hoe ie hconv
        exact ⟨CtyType.map r,
          by simp [dynamicReplace, CtyType.isDynamicType, CtyType.isNilType, hr, Except.map]⟩
      | object iattrs =>
        simp only [convertible] at hconv
        rw [convertibleAttrVals_eq_all] at hconv
        rcases unify_conv oe _ hconv with hu | hu
        · exact ⟨CtyType.map oe,
            by simp [dynamicReplace, CtyType.isDynamicType, CtyType.isNilType, hu,
              dR_nilT_left, Except.map]⟩
        · obtain ⟨r, hr⟩ := ih oe hoe _ hu
          exact ⟨CtyType.map r,
            by simp [dynamicReplace, CtyType.isDynamicType, CtyType.isNilType, hr, Except.map]⟩
    | object oattrs =>
      have hIH : ∀ t₀, sizeOf t₀ < sizeOf oattrs → TotalAt t₀ := by
        intro t₀ h₀
        refine ih t₀ ?_
        simp only [CtyType.object.sizeOf_spec] at he
        omega
      cases tin with
      | dynamic => exact ⟨_, dR_dyn_left _⟩
      | nil => exact ⟨_, dR_nilT_left _⟩
      | prim p => simp [convertible] at hconv
      | capsule c => simp [convertible] at hconv
      | list e1 => simp [convertible] at hconv
      | set e1 => simp [convertible] at hconv
      | tuple ts => simp [convertible] at hconv
      | map ie =>
        simp only [convertible] at hconv
        obtain ⟨rs, hrs⟩ := replaceAttrsFromMap_total oattrs hIH ie hconv
        exact ⟨CtyType.object rs,
          by simp [dynamicReplace, CtyType.isDynamicType, CtyType.isNilType, hrs, Except.map]⟩
      | object iattrs =>
        simp only [convertible, Bool.and_eq_true] at hconv
        obtain ⟨rs, hrs⟩ := replaceAttrs_total oattrs hIH iattrs hconv.1
        exact ⟨CtyType.object rs,
          by simp [dynamicReplace, CtyType.isDynamicType, CtyType.isNilType, hrs, Except.map]⟩
    | set oe =>
      have hoe : sizeOf oe ≤ n := by
        simp only [CtyType.set.sizeOf_spec] at he; omega
      cases tin with
      | dynamic => exact ⟨_, dR_dyn_left _⟩
      | nil => exact ⟨_, dR_nilT_left _⟩
      | prim p => simp [convertible] at hconv
      | capsule c => simp [convertible] at hconv
      | map e1 => simp [convertible] at hconv
      | object iattrs => simp [convertible] at hconv
      | list ie =>
        simp only [convertible] at hconv
        obtain ⟨r, hr⟩ := ih oe hoe ie hconv
        exact ⟨CtyType.set r,
          by simp [dynamicReplace, CtyType.isDynamicType, CtyType.isNilType, hr, Except.map]⟩
      | set ie =>
        simp only [convertible] at hconv
        obtain ⟨r, hr⟩ := ih oe hoe ie hconv
        exact ⟨CtyType.set r,
          by simp [dynamicReplace, CtyType.isDynamicType, CtyType.isNilType, hr, Except.map]⟩
      | tuple tes =>
        simp only [convertible] at hconv
        rcases unify_conv oe _ hconv with hu | hu
        · exact ⟨CtyType.set oe,
            by simp [dynamicReplace, CtyType.isDynamicType, CtyType.isNilType, hu,
              dR_nilT_left, Except.map]⟩
        · obtain ⟨r, hr⟩ := ih oe hoe _ hu
          exact ⟨CtyType.set r,
            by simp [dynamicReplace, CtyType.isDynamicType, CtyType.isNilType, hr, Except.map]⟩
    | list oe =>
      have hoe : sizeOf oe ≤ n := by
        simp only [CtyType.list.sizeOf_spec] at he; omega
      cases tin with
      | dynamic => exact ⟨_, dR_dyn_left _⟩
      | nil => exact ⟨_, dR_nilT_left _⟩
      | prim p => simp [convertible] at hconv
      | capsule c => simp [convertible] at hconv
      | map e1 => simp [convertible] at hconv
      | object iattrs => simp [convertible] at hconv
      | list ie =>
        simp only [convertible] at hconv
        obtain ⟨r, hr⟩ := ih oe hoe ie hconv
        exact ⟨CtyType.list r,
          by simp [dynamicReplace, CtyType.isDynamicType, CtyType.isNilType, hr, Except.map]⟩
      | set ie =>
        simp only [convertible] at hconv
        obtain ⟨r, hr⟩ := ih oe hoe ie hconv
        exact ⟨CtyType.list r,
          by simp [dynamicReplace, CtyType.isDynamicType, CtyType.isNilType, hr, Except.map]⟩
      | tuple tes =>
        simp only [convertible] at hconv
        rcases unify_conv oe _ hconv with hu | hu
        · exact ⟨CtyType.list oe,
            by simp [dynamicReplace, CtyType.isDynamicType, CtyType.isNilType, hu,
              dR_nilT_left, Except.map]⟩
        · obtain ⟨r, hr⟩ := ih oe hoe _ hu
          exact ⟨CtyType.list r,
            by simp [dynamicReplace, CtyType.isDynamicType, CtyType.isNilType, hr, Except.map]⟩
    | tuple oes =>
      have hIH : ∀ t₀, sizeOf t₀ < sizeOf oes → TotalAt t₀ := by
        intro t₀ h₀
        refine ih t₀ ?_
        simp only [CtyType.tuple.sizeOf_spec] at he
        omega
      cases tin with
      | dynamic => exact ⟨_, dR_dyn_left _⟩
      | nil => exact ⟨_, dR_nilT_left _⟩
      | prim p => simp [convertible] at hconv
      | capsule c => simp [convertible] at hconv
      | map e1 => simp [convertible] at hconv
      | object iattrs => simp [convertible] at hconv
      | list e1 => simp [convertible] at hconv
      | set e1 => simp [convertible] at hconv
      | tuple tes =>
        simp only [convertible] at hconv
        obtain ⟨rs, hrs⟩ := replaceTupleElems_total oes hIH tes hconv
        exact ⟨CtyType.tuple rs,
          by simp [dynamicReplace, CtyType.isDynamicType, CtyType.isNilType, hrs, Except.map]⟩

/-- Totality of `dynamicReplace` under convert-compatibility. -/
theorem dR_total (tin tout : CtyType) (hconv : convertible tin tout = true) :
    ∃ r, dynamicReplace tin tout = Except.ok r :=
  dR_total_aux (sizeOf tout) tout le_rfl tin hconv

/-- The unrecognized-type fault recorded by `dynamicReplace` below target
`tout` always records the nil type. -/
def UnrecAt (tout : CtyType) : Prop :=
  ∀ tin t, dynamicReplace tin tout = Except.error (Fault.unrecognized t) →
    t = CtyType.nil

theorem replaceAttrsFromMap_unrec :
    ∀ oattrs : List (String × CtyType),
      (∀ t₀, sizeOf t₀ < sizeOf oattrs → UnrecAt t₀) →
      ∀ ie t, replaceAttrsFromMap ie oattrs = Except.error (Fault.unrecognized t) →
        t = CtyType.nil := by
  intro oattrs
  induction oattrs with
  | nil => intro _ ie t h; simp [replaceAttrsFromMap] at h
  | cons a rest ih =>
    intro IH ie t h
    obtain ⟨k, t1⟩ := a
    simp only [replaceAttrsFromMap] at h
    cases hdr : dynamicReplace ie t1 with
    | error e1 =>
      rw [hdr] at h
      simp [bind, Except.bind] at h
      subst h
      refine IH t1 ?_ ie t hdr
      simp only [List.cons.sizeOf_spec, Prod.mk.sizeOf_spec]; omega
    | ok r =>
      rw [hdr] at h
      simp only [bind, Except.bind] at h
      cases hrs : replaceAttrsFromMap ie rest with
      | error e2 =>
        rw [hrs] at h
        simp at h
        subst h
        refine ih (fun t₀ h₀ => IH t₀ ?_) ie t hrs
        simp only [List.cons.sizeOf_spec]; omega
      | ok rs =>
        rw [hrs] at h
        simp [pure, Except.pure] at h

theorem replaceAttrs_unrec :
    ∀ oattrs : List (String × CtyType),
      (∀ t₀, sizeOf t₀ < sizeOf oattrs → UnrecAt t₀) →
      ∀ iattrs t, replaceAttrs iattrs oattrs = Except.error (Fault.unrecognized t) →
        t = CtyType.nil := by
  intro oattrs
  induction oattrs with
  | nil => intro _ iattrs t h; simp [replaceAttrs] at h
  | cons a rest ih =>
    intro IH iattrs t h
    obtain ⟨k, t1⟩ := a
    simp only [replaceAttrs] at h
    cases hl : lookupA iattrs k with
    | none =>
      simp only [hl] at h
      simp only [bind, Except.bind] at h
      cases hrs : replaceAttrs iattrs rest with
      | error e2 =>
        rw [hrs] at h
        simp at h
        subst h
        refine ih (fun t₀ h₀ => IH t₀ ?_) iattrs t hrs
        simp only [List.cons.sizeOf_spec]; omega
      | ok rs =>
        rw [hrs] at h
        simp [pure, Except.pure] at h
    | some s =>
      simp only [hl] at h
      cases hdr : dynamicReplace s t1 with
      | error e1 =>
        rw [hdr] at h
        simp [bind, Except.bind] at h
        subst h
        refine IH t1 ?_ s t hdr
        simp only [List.cons.sizeOf_spec, Prod.mk.sizeOf_spec]; omega
      | ok r =>
        rw [hdr] at h
        simp only [bind, Except.bind] at h
        cases hrs : replaceAttrs iattrs rest with
        | error e2 =>
          rw [hrs] at h
          simp at h
          subst h
          refine ih (fun t₀ h₀ => IH t₀ ?_) iattrs t hrs
          simp only [List.cons.sizeOf_spec]; omega
        | ok rs =>
          rw [hrs] at h
          simp [pure, Except.pure] at h

theorem replaceTupleElems_unrec :
    ∀ oes : List CtyType,
      (∀ t₀, sizeOf t₀ < sizeOf oes → UnrecAt t₀) →
      ∀ tes t, replaceTupleElems tes oes = Except.error (Fault.unrecognized t) →
        t = CtyType.nil := by
  intro oes
  induction oes with
  | nil =>
    intro _ tes t h
    cases tes <;> simp [replaceTupleElems] at h
  | cons o oes ih =>
    intro IH tes t h
    cases tes with
    | nil => simp [replaceTupleElems] at h
    | cons t1 tes =>
      simp only [replaceTupleElems] at h
      cases hdr : dynamicReplace t1 o with
      | error e1 =>
        rw [hdr] at h
        simp [bind, Except.bind] at h
        subst h
        refine IH o ?_ t1 t hdr
        simp only [List.cons.sizeOf_spec]; omega
      | ok r =>
        rw [hdr] at h
        simp only [bind, Except.bind] at h
        cases hrs : replaceTupleElems tes oes with
        | error e2 =>
          rw [hrs] at h
          simp at h
          subst h
          refine ih (fun t₀ h₀ => IH t₀ ?_) tes t hrs
          simp only [List.cons.sizeOf_spec]; omega
        | ok rs =>
          rw [hrs] at h
          simp [pure, Except.pure] at h

/-- The unrecognized-type fault of `dynamicReplace` can only record the
nil type (the one variant no case of the type switch handles), by
induction on the size of the target type. -/
theorem dR_unrec_aux : ∀ n : Nat, ∀ tout, sizeOf tout ≤ n → UnrecAt tout := by
  intro n
  induction n with
  | zero =>
    intro tout he
    exact absurd he (by have := sizeOf_pos_cty tout; omega)
  | succ n ih =>
    intro tout he tin t h
    by_cases hdyn : tin.isDynamicType || tin.isNilType
    · rw [dynamicReplace.eq_def] at h
      simp [hdyn] at h
    · rw [dynamicReplace.eq_def] at h
      simp only [hdyn, Bool.false_eq_true, if_false] at h
      cases tout with
      | dynamic => simp at h
      | nil =>
        simp at h
        exact h.symm
      | prim p => simp at h
      | capsule c => simp at h
      | map oe =>
        have hoe : sizeOf oe ≤ n := by
          simp only [CtyType.map.sizeOf_spec] at he; omega
        cases tin with
        | map ie =>
          simp only [exceptMap_eq_error] at h
          exact ih oe hoe ie t h
        | object iattrs =>
          simp only [exceptMap_eq_error] at h
          exact ih oe hoe _ t h
        | nil => simp [CtyType.isNilType] at hdyn
        | dynamic => simp [CtyType.isDynamicType] at hdyn
        | prim p => simp at h
        | capsule c => simp at h
        | list e1 => simp at h
        | set e1 => simp at h
        | tuple ts => simp at h
      | object oattrs =>
        have hIH : ∀ t₀, sizeOf t₀ < sizeOf oattrs → UnrecAt t₀ := by
          intro t₀ h₀
          refine ih t₀ ?_
          simp only [CtyType.object.sizeOf_spec] at he
          omega
        cases tin with
        | map ie =>
          simp only [exceptMap_eq_error] at h
          exact replaceAttrsFromMap_unrec oattrs hIH ie t h
        | object iattrs =>
          simp only [exceptMap_eq_error] at h
          exact replaceAttrs_unrec oattrs hIH iattrs t h
        | nil => simp [CtyType.isNilType] at hdyn
        | dynamic => simp [CtyType.isDynamicType] at hdyn
        | prim p => simp at h
        | capsule c => simp at h
        | list e1 => simp at h
        | set e1 => simp at h
        | tuple ts => simp at h
      | set oe =>
        have hoe : sizeOf oe ≤ n := by
          simp only [CtyType.set.sizeOf_spec] at he; omega
        cases tin with
        | list ie =>
          simp only [exceptMap_eq_error] at h
          exact ih oe hoe ie t h
        | set ie =>
          simp only [exceptMap_eq_error] at h
          exact ih oe hoe ie t h
        | tuple tes =>
          simp only [exceptMap_eq_error] at h
          exact ih oe hoe _ t h
        | nil => simp [CtyType.isNilType] at hdyn
        | dynamic => simp [CtyType.isDynamicType] at hdyn
        | prim p => simp at h
        | capsule c => simp at h
        | map e1 => simp at h
        | object iattrs => simp at h
      | list oe =>
        have hoe : sizeOf oe ≤ n := by
          simp only [CtyType.list.sizeOf_spec] at he; omega
        cases tin with
        | list ie =>
          simp only [exceptMap_eq_error] at h
          exact ih oe hoe ie t h
        | set ie =>
          simp only [exceptMap_eq_error] at h
          exact ih oe hoe ie t h
        | tuple tes =>
          simp only [exceptMap_eq_error] at h
          exact ih oe hoe _ t h
        | nil => simp [CtyType.isNilType] at hdyn
        | dynamic => simp [CtyType.isDynamicType] at hdyn
        | prim p => simp at h
        | capsule c => simp at h
        | map e1 => simp at h
        | object iattrs => simp at h
      | tuple oes =>
        have hIH : ∀ t₀, sizeOf t₀ < sizeOf oes → UnrecAt t₀ := by
          intro t₀ h₀
          refine ih t₀ ?_
          simp only [CtyType.tuple.sizeOf_spec] at he
          omega
        cases tin with
        | tuple tes =>
          simp only [exceptMap_eq_error] at h
          exact replaceTupleElems_unrec oes hIH tes t h
        | nil => simp [CtyType.isNilType] at hdyn
        | dynamic => simp [CtyType.isDynamicType] at hdyn
        | prim p => cases oes <;> simp at h
        | capsule c => cases oes <;> simp at h
        | map e1 => cases oes <;> simp at h
        | object iattrs => cases oes <;> simp at h
        | list e1 => cases oes <;> simp at h
        | set e1 => cases oes <;> simp at h

/-- The unrecognized-type fault only ever records the nil type. -/
theorem dR_unrec (tin tout t : CtyType)
    (h : dynamicReplace tin tout = Except.error (Fault.unrecognized t)) :
    t = CtyType.nil :=
  dR_unrec_aux (sizeOf tout) tout le_rfl tin t h

/-- Attribute-level description of a successful object-to-object
replacement: an attribute of `out` missing from `in` keeps its declared
type, and an attribute present in both carries the recursive
replacement. -/
theorem replaceAttrs_lookup_spec :
    ∀ (oattrs iattrs rs : List (String × CtyType)),
      replaceAttrs iattrs oattrs = Except.ok rs →
      (oattrs.map Prod.fst).Nodup →
      ∀ k t, (k, t) ∈ oattrs →
        (lookupA iattrs k = none → lookupA rs k = some t) ∧
        (∀ s, lookupA iattrs k = some s →
          ∃ r, dynamicReplace s t = Except.ok r ∧ lookupA rs k = some r) := by
  intro oattrs
  induction oattrs with
  | nil =>
    intro iattrs rs h hnd k t hmem
    simp at hmem
  | cons a rest ih =>
    intro iattrs rs h hnd k t hmem
    obtain ⟨k1, t1⟩ := a
    simp only [List.map_cons, List.nodup_cons] at hnd
    simp only [replaceAttrs] at h
    rcases hl : lookupA iattrs k1 with _ | s
    · simp only [hl] at h
      simp only [bind, Except.bind] at h
      cases hres : replaceAttrs iattrs rest with
      | error e => rw [hres] at h; simp at h
      | ok rs' =>
        rw [hres] at h
        simp [pure, Except.pure] at h
        subst h
        simp only [List.mem_cons, Prod.mk.injEq] at hmem
        rcases hmem with ⟨hk, ht⟩ | hmem
        · subst hk
          subst ht
          constructor
          · intro _
            simp [lookupA]
          · intro s0 hs0
            rw [hl] at hs0
            cases hs0
        · by_cases hkk : k1 = k
          · exfalso
            apply hnd.1
            subst hkk
            exact List.mem_map.mpr ⟨(k1, t), hmem, rfl⟩
          · have := ih iattrs rs' hres hnd.2 k t hmem
            constructor
            · intro hnone
              simp only [lookupA, if_neg hkk]
              exact this.1 hnone
            · intro s0 hs0
              obtain ⟨r, hr1, hr2⟩ := this.2 s0 hs0
              exact ⟨r, hr1, by simp only [lookupA, if_neg hkk]; exact hr2⟩
    · simp only [hl] at h
      cases hdr : dynamicReplace s t1 with
      | error e =>
        rw [hdr] at h
        simp [bind, Except.bind] at h
      | ok r =>
        rw [hdr] at h
        simp only [bind, Except.bind] at h
        cases hres : replaceAttrs iattrs rest with
        | error e => rw [hres] at h; simp at h
        | ok rs' =>
          rw [hres] at h
          simp [pure, Except.pure] at h
          subst h
          simp only [List.mem_cons, Prod.mk.injEq] at hmem
          rcases hmem with ⟨hk, ht⟩ | hmem
          · subst hk
            subst ht
            constructor
            · intro hnone
              rw [hl] at hnone
              cases hnone
            · intro s0 hs0
              rw [hl] at hs0
              cases hs0
              exact ⟨r, hdr, by simp [lookupA]⟩
          · by_cases hkk : k1 = k
            · exfalso
              apply hnd.1
              subst hkk
              exact List.mem_map.mpr ⟨(k1, t), hmem, rfl⟩
            · have := ih iattrs rs' hres hnd.2 k t hmem
              constructor
              · intro hnone
                simp only [lookupA, if_neg hkk]
                exact this.1 hnone
              · intro s0 hs0
                obtain ⟨r2, hr1, hr2⟩ := this.2 s0 hs0
                exact ⟨r2, hr1, by simp only [lookupA, if_neg hkk]; exact hr2⟩

/-- A successful tuple-element replacement has the arity of `out`. -/
theorem replaceTupleElems_length :
    ∀ (oes tes rs : List CtyType),
      replaceTupleElems tes oes = Except.ok rs → rs.length = oes.length := by
  intro oes
  induction oes with
  | nil =>
    intro tes rs h
    cases tes <;> simp [replaceTupleElems] at h <;> simp [← h]
  | cons o oes ih =>
    intro tes rs h
    cases tes with
    | nil => simp [replaceTupleElems] at h
    | cons t tes =>
      simp only [replaceTupleElems] at h
      cases hdr : dynamicReplace t o with
      | error e => rw [hdr] at h; simp [bind, Except.bind] at h
      | ok r =>
        rw [hdr] at h
        simp only [bind, Except.bind] at h
        cases hres : replaceTupleElems tes oes with
        | error e => rw [hres] at h; simp at h
        | ok rs' =>
          rw [hres] at h
          simp [pure, Except.pure] at h
          subst h
          simp [ih tes rs' hres]

/-- The tuple-element loop is position-wise recursion over the zipped
element lists when `in` has at least the arity of `out`. -/
theorem replaceTupleElems_eq_mapM :
    ∀ (oes tes : List CtyType), oes.length ≤ tes.length →
      replaceTupleElems tes oes =
        (tes.zip oes).mapM fun p => dynamicReplace p.1 p.2 := by
  intro oes
  induction oes with
  | nil =>
    intro tes h
    cases tes <;> simp [replaceTupleElems, List.mapM_nil] <;> rfl
  | cons o oes ih =>
    intro tes h
    cases tes with
    | nil => simp at h
    | cons t tes =>
      simp only [List.length_cons, Nat.add_le_add_iff_right] at h
      rw [List.zip_cons_cons, List.mapM_cons]
      simp only [replaceTupleElems]
      rw [ih tes h]

/-- C2: for every pair of types that are convert-compatible, if the
target contains no dynamic placeholder at any depth then `dynamicReplace`
returns the target unchanged (identity on placeholder-free targets). -/
theorem C2_identity_on_placeholder_free (tin tout : CtyType)
    (hconv : convertible tin tout = true) (hnd : noDynamic tout = true) :
    dynamicReplace tin tout = Except.ok tout :=
  dR_identity tin tout hconv hnd

theorem C2_identity_on_placeholder_free_witness :
    convertible (CtyType.object [("a", CtyType.prim .number)])
      (CtyType.map (CtyType.prim .string)) = true ∧
    noDynamic (CtyType.map (CtyType.prim .string)) = true ∧
    dynamicReplace (CtyType.object [("a", CtyType.prim .number)])
      (CtyType.map (CtyType.prim .string)) =
      Except.ok (CtyType.map (CtyType.prim .string)) := by
  have h1 : convertible (CtyType.object [("a", CtyType.prim .number)])
      (CtyType.map (CtyType.prim .string)) = true := by
    simp [convertible, convertibleAttrVals, primConv]
  have h2 : noDynamic (CtyType.map (CtyType.prim .string)) = true := by
    simp [noDynamic]
  exact ⟨h1, h2, C2_identity_on_placeholder_free _ _ h1 h2⟩

/-- C3: for every concrete (non-placeholder, non-nil) type, replacing into
a bare dynamic placeholder target returns the concrete type exactly. -/
theorem C3_concrete_into_placeholder (tin : CtyType)
    (h1 : tin ≠ CtyType.dynamic) (h2 : tin ≠ CtyType.nil) :
    dynamicReplace tin CtyType.dynamic = Except.ok tin := by
  cases tin with
  | dynamic => exact absurd rfl h1
  | nil => exact absurd rfl h2
  | prim p => rw [dynamicReplace.eq_def]; rfl
  | capsule c => rw [dynamicReplace.eq_def]; rfl
  | list e => rw [dynamicReplace.eq_def]; rfl
  | set e => rw [dynamicReplace.eq_def]; rfl
  | map e => rw [dynamicReplace.eq_def]; rfl
  | object attrs => rw [dynamicReplace.eq_def]; rfl
  | tuple es => rw [dynamicReplace.eq_def]; rfl

theorem C3_concrete_into_placeholder_witness :
    dynamicReplace (CtyType.list (CtyType.prim .bool)) CtyType.dynamic =
      Except.ok (CtyType.list (CtyType.prim .bool)) :=
  C3_concrete_into_placeholder (CtyType.list (CtyType.prim .bool))
    (by simp) (by simp)

/-- C4: for every target type, `dynamicReplace` returns the target
unchanged when the source is the dynamic placeholder or the nil type. -/
theorem C4_dynamic_or_nil_source (tout : CtyType) :
    dynamicReplace CtyType.dynamic tout = Except.ok tout ∧
    dynamicReplace CtyType.nil tout = Except.ok tout :=
  ⟨dR_dyn_left tout, dR_nilT_left tout⟩

/-- C5: for every map target and object source, `dynamicReplace` returns
a map whose element type is the replacement of the unsafe unification of
the source's attribute types into the target's element type; in
particular `dynamicReplace(Object{a: Number}, Map(Dynamic)) =
Map(Number)`. -/
theorem C5_map_target_from_object :
    (∀ (iattrs : List (String × CtyType)) (oe : CtyType),
      dynamicReplace (CtyType.object iattrs) (CtyType.map oe) =
        (dynamicReplace (unify (iattrs.map Prod.snd) true) oe).map CtyType.map) ∧
    dynamicReplace (CtyType.object [("a", CtyType.prim .number)])
      (CtyType.map CtyType.dynamic) =
      Except.ok (CtyType.map (CtyType.prim .number)) := by
  constructor
  · intro iattrs oe
    rw [dynamicReplace.eq_def]
    rfl
  · simp [dynamicReplace, unify, unifyFold, CtyType.isDynamicType,
      CtyType.isNilType, Except.map]

/-- C6: for an object target and an object source, an attribute present
in the target but absent from the source keeps the target's declared
attribute type unchanged (its placeholder, if any, is kept), and an
attribute present in both carries the recursive replacement of the two
attribute types. -/
theorem C6_object_target_optional_attributes
    (iattrs oattrs rs : List (String × CtyType)) (k : String)
    (hok : dynamicReplace (CtyType.object iattrs) (CtyType.object oattrs) =
      Except.ok (CtyType.object rs))
    (hnd : (oattrs.map Prod.fst).Nodup) :
    (∀ t, (k, t) ∈ oattrs → lookupA iattrs k = none →
      lookupA rs k = some t) ∧
    (∀ t s, (k, t) ∈ oattrs → lookupA iattrs k = some s →
      ∃ r, dynamicReplace s t = Except.ok r ∧ lookupA rs k = some r) := by
  have hr : dynamicReplace (CtyType.object iattrs) (CtyType.object oattrs) =
      (replaceAttrs iattrs oattrs).map CtyType.object := by
    rw [dynamicReplace.eq_def]
    rfl
  rw [hr, exceptMap_eq_ok] at hok
  obtain ⟨rs0, hra, heq⟩ := hok
  have hrs : rs0 = rs := by
    cases heq
    rfl
  subst hrs
  exact ⟨fun t hmem hnone =>
      (replaceAttrs_lookup_spec oattrs iattrs rs0 hra hnd k t hmem).1 hnone,
    fun t s hmem hsome =>
      (replaceAttrs_lookup_spec oattrs iattrs rs0 hra hnd k t hmem).2 s hsome⟩

theorem C6_object_target_optional_attributes_witness :
    lookupA [("a", CtyType.prim .number), ("b", CtyType.dynamic)] "b" =
      some CtyType.dynamic ∧
    ∃ r, dynamicReplace (CtyType.prim .number) CtyType.dynamic = Except.ok r ∧
      lookupA [("a", CtyType.prim .number), ("b", CtyType.dynamic)] "a" = some r := by
  have hok : dynamicReplace (CtyType.object [("a", CtyType.prim .number)])
      (CtyType.object [("a", CtyType.dynamic), ("b", CtyType.dynamic)]) =
      Except.ok (CtyType.object [("a", CtyType.prim .number), ("b", CtyType.dynamic)]) := by
    simp [dynamicReplace, replaceAttrs, lookupA, CtyType.isDynamicType,
      CtyType.isNilType, Except.map, bind, Except.bind, pure, Except.pure]
  have hnd : ((([("a", CtyType.dynamic), ("b", CtyType.dynamic)] :
      List (String × CtyType))).map Prod.fst).Nodup := by
    simp
  have hB := C6_object_target_optional_attributes
    [("a", CtyType.prim .number)] [("a", CtyType.dynamic), ("b", CtyType.dynamic)]
    [("a", CtyType.prim .number), ("b", CtyType.dynamic)] "b" hok hnd
  have hA := C6_object_target_optional_attributes
    [("a", CtyType.prim .number)] [("a", CtyType.dynamic), ("b", CtyType.dynamic)]
    [("a", CtyType.prim .number), ("b", CtyType.dynamic)] "a" hok hnd
  constructor
  · exact hB.1 CtyType.dynamic (by simp) (by simp [lookupA])
  · exact hA.2 CtyType.dynamic (CtyType.prim .number) (by simp) (by simp [lookupA])

/-- C7: for a tuple target and a tuple source of at least the same arity,
`dynamicReplace` is the position-wise replacement over the zipped element
lists, producing a tuple of the target's arity. -/
theorem C7_tuple_target_positional (tes oes : List CtyType)
    (h : oes.length ≤ tes.length) :
    dynamicReplace (CtyType.tuple tes) (CtyType.tuple oes) =
      ((tes.zip oes).mapM fun p => dynamicReplace p.1 p.2).map CtyType.tuple := by
  have hr : dynamicReplace (CtyType.tuple tes) (CtyType.tuple oes) =
      (replaceTupleElems tes oes).map CtyType.tuple := by
    rw [dynamicReplace.eq_def]
    rfl
  rw [hr, replaceTupleElems_eq_mapM oes tes h]

theorem C7_tuple_target_positional_witness :
    dynamicReplace (CtyType.tuple [CtyType.prim .number, CtyType.prim .string])
      (CtyType.tuple [CtyType.dynamic]) =
      ((([CtyType.prim .number, CtyType.prim .string].zip
        [CtyType.dynamic]).mapM fun p => dynamicReplace p.1 p.2).map CtyType.tuple) ∧
    dynamicReplace (CtyType.tuple [CtyType.prim .number, CtyType.prim .string])
      (CtyType.tuple [CtyType.dynamic]) =
      Except.ok (CtyType.tuple [CtyType.prim .number]) := by
  constructor
  · exact C7_tuple_target_positional [CtyType.prim .number, CtyType.prim .string]
      [CtyType.dynamic] (by simp)
  · simp [dynamicReplace, replaceTupleElems, CtyType.isDynamicType,
      CtyType.isNilType, Except.map, bind, Except.bind, pure, Except.pure]

/-- C8 counterexample: the claim that `dynamicReplace` returns a type
whenever the target is one of the handled variants is false — a tuple
target (a handled variant) with a primitive source panics inside the
tuple-element access before any type is returned. -/
theorem C8_fault_counterexample :
    (CtyType.tuple [CtyType.prim .number]).isTupleType = true ∧
    dynamicReplace (CtyType.prim .number) (CtyType.tuple [CtyType.prim .number]) =
      Except.error Fault.tupleAccess := by
  constructor
  · rfl
  · simp [dynamicReplace, CtyType.isDynamicType, CtyType.isNilType]

/-- C8 (amended): the explicit fatal-fault branch of the type switch is
reached only for a target type that is none of the handled variants (in
this algebra, only the nil type, which every faulting call records); and
under the precondition that the source and target are convert-compatible,
`dynamicReplace` returns a type — there is no recoverable-error outcome. -/
theorem C8_fault_only_unhandled_and_total :
    (∀ tin tout t,
      dynamicReplace tin tout = Except.error (Fault.unrecognized t) →
        t = CtyType.nil) ∧
    (∀ tin tout, convertible tin tout = true →
      ∃ r, dynamicReplace tin tout = Except.ok r) :=
  ⟨fun tin tout t h => dR_unrec tin tout t h,
    fun tin tout h => dR_total tin tout h⟩

theorem C8_fault_only_unhandled_and_total_witness :
    convertible (CtyType.prim .number) (CtyType.prim .string) = true ∧
    ∃ r, dynamicReplace (CtyType.prim .number) (CtyType.prim .string) =
      Except.ok r := by
  have h : convertible (CtyType.prim .number) (CtyType.prim .string) = true := by
    simp [convertible, primConv]
  exact ⟨h, C8_fault_only_unhandled_and_total.2 _ _ h⟩

/-- C10: for a map, set, or list target, when the source is none of the
variants the branch recognizes (for a map target: neither map nor object;
for set/list targets: neither set, list, nor tuple), `dynamicReplace`
silently returns a container of the target's variant whose element type
is the nil type. -/
theorem C10_unrecognized_source_nil_element (tin : CtyType)
    (h1 : tin ≠ CtyType.dynamic) (h2 : tin ≠ CtyType.nil) :
    (∀ oe, tin.isMapType = false → tin.isObjectType = false →
      dynamicReplace tin (CtyType.map oe) =
        Except.ok (CtyType.map CtyType.nil)) ∧
    (∀ oe, tin.isSetType = false → tin.isListType = false →
        tin.isTupleType = false →
      dynamicReplace tin (CtyType.set oe) =
        Except.ok (CtyType.set CtyType.nil) ∧
      dynamicReplace tin (CtyType.list oe) =
        Except.ok (CtyType.list CtyType.nil)) := by
  cases tin with
  | dynamic => exact absurd rfl h1
  | nil => exact absurd rfl h2
  | prim p =>
    exact ⟨fun oe _ _ => by rw [dynamicReplace.eq_def]; rfl,
      fun oe _ _ _ => ⟨by rw [dynamicReplace.eq_def]; rfl,
        by rw [dynamicReplace.eq_def]; rfl⟩⟩
  | capsule c =>
    exact ⟨fun oe _ _ => by rw [dynamicReplace.eq_def]; rfl,
      fun oe _ _ _ => ⟨by rw [dynamicReplace.eq_def]; rfl,
        by rw [dynamicReplace.eq_def]; rfl⟩⟩
  | list e1 =>
    exact ⟨fun oe _ _ => by rw [dynamicReplace.eq_def]; rfl,
      fun oe _ hl _ => by simp [CtyType.isListType] at hl⟩
  | set e1 =>
    exact ⟨fun oe _ _ => by rw [dynamicReplace.eq_def]; rfl,
      fun oe hs _ _ => by simp [CtyType.isSetType] at hs⟩
  | map e1 =>
    exact ⟨fun oe hm _ => by simp [CtyType.isMapType] at hm,
      fun oe _ _ _ => ⟨by rw [dynamicReplace.eq_def]; rfl,
        by rw [dynamicReplace.eq_def]; rfl⟩⟩
  | object iattrs =>
    exact ⟨fun oe _ ho => by simp [CtyType.isObjectType] at ho,
      fun oe _ _ _ => ⟨by rw [dynamicReplace.eq_def]; rfl,
        by rw [dynamicReplace.eq_def]; rfl⟩⟩
  | tuple ts =>
    exact ⟨fun oe _ _ => by rw [dynamicReplace.eq_def]; rfl,
      fun oe _ _ ht => by simp [CtyType.isTupleType] at ht⟩

theorem C10_unrecognized_source_nil_element_witness :
    dynamicReplace (CtyType.prim .number) (CtyType.map (CtyType.prim .string)) =
      Except.ok (CtyType.map CtyType.nil) ∧
    dynamicReplace (CtyType.prim .number) (CtyType.set CtyType.dynamic) =
      Except.ok (CtyType.set CtyType.nil) ∧
    dynamicReplace (CtyType.prim .number) (CtyType.list CtyType.dynamic) =
      Except.ok (CtyType.list CtyType.nil) := by
  have h := C10_unrecognized_source_nil_element (CtyType.prim .number)
    (by simp) (by simp)
  refine ⟨h.1 (CtyType.prim .string) rfl rfl, ?_, ?_⟩
  · exact (h.2 CtyType.dynamic rfl rfl rfl).1
  · exact (h.2 CtyType.dynamic rfl rfl rfl).2

/-- C9: variant preservation — for a source that is neither the dynamic
placeholder nor nil and a target that is not the dynamic placeholder, a
successful `dynamicReplace` has the same outermost variant as the target:
a primitive or capsule target is returned as itself, map yields map,
object yields object, set yields set, list yields list, and a tuple
target yields a tuple of the target's arity. -/
theorem C9_variant_preservation (tin tout r : CtyType)
    (h1 : tin ≠ CtyType.dynamic) (h2 : tin ≠ CtyType.nil)
    (h3 : tout ≠ CtyType.dynamic)
    (hok : dynamicReplace tin tout = Except.ok r) :
    ((tout.isPrimitiveType = true ∨ tout.isCapsuleType = true) → r = tout) ∧
    (tout.isMapType = true → r.isMapType = true) ∧
    (tout.isObjectType = true → r.isObjectType = true) ∧
    (tout.isSetType = true → r.isSetType = true) ∧
    (tout.isListType = true → r.isListType = true) ∧
    (∀ oes, tout = CtyType.tuple oes →
      ∃ rs, r = CtyType.tuple rs ∧ rs.length = oes.length) := by
  cases tout with
  | dynamic => exact absurd rfl h3
  | nil =>
    exfalso
    cases tin with
    | dynamic => exact absurd rfl h1
    | nil => exact absurd rfl h2
    | prim p => rw [dynamicReplace.eq_def] at hok; simp [CtyType.isDynamicType, CtyType.isNilType] at hok
    | capsule c => rw [dynamicReplace.eq_def] at hok; simp [CtyType.isDynamicType, CtyType.isNilType] at hok
    | list e => rw [dynamicReplace.eq_def] at hok; simp [CtyType.isDynamicType, CtyType.isNilType] at hok
    | set e => rw [dynamicReplace.eq_def] at hok; simp [CtyType.isDynamicType, CtyType.isNilType] at hok
    | map e => rw [dynamicReplace.eq_def] at hok; simp [CtyType.isDynamicType, CtyType.isNilType] at hok
    | object attrs => rw [dynamicReplace.eq_def] at hok; simp [CtyType.isDynamicType, CtyType.isNilType] at hok
    | tuple es => rw [dynamicReplace.eq_def] at hok; simp [CtyType.isDynamicType, CtyType.isNilType] at hok
  | prim p =>
    have hr : r = CtyType.prim p := by
      cases tin with
      | dynamic => exact absurd rfl h1
      | nil => exact absurd rfl h2
      | prim q =>
        rw [dynamicReplace.eq_def] at hok; simp [CtyType.isDynamicType, CtyType.isNilType] at hok; exact hok.symm
      | capsule c =>
        rw [dynamicReplace.eq_def] at hok; simp [CtyType.isDynamicType, CtyType.isNilType] at hok; exact hok.symm
      | list e =>
        rw [dynamicReplace.eq_def] at hok; simp [CtyType.isDynamicType, CtyType.isNilType] at hok; exact hok.symm
      | set e =>
        rw [dynamicReplace.eq_def] at hok; simp [CtyType.isDynamicType, CtyType.isNilType] at hok; exact hok.symm
      | map e =>
        rw [dynamicReplace.eq_def] at hok; simp [CtyType.isDynamicType, CtyType.isNilType] at hok; exact hok.symm
      | object attrs =>
        rw [dynamicReplace.eq_def] at hok; simp [CtyType.isDynamicType, CtyType.isNilType] at hok; exact hok.symm
      | tuple es =>
        rw [dynamicReplace.eq_def] at hok; simp [CtyType.isDynamicType, CtyType.isNilType] at hok; exact hok.symm
    subst hr
    simp [CtyType.isPrimitiveType, CtyType.isCapsuleType, CtyType.isMapType,
      CtyType.isObjectType, CtyType.isSetType, CtyType.isListType]
  | capsule c =>
    have hr : r = CtyType.capsule c := by
      cases tin with
      | dynamic => exact absurd rfl h1
      | nil => exact absurd rfl h2
      | prim q =>
        rw [dynamicReplace.eq_def] at hok; simp [CtyType.isDynamicType, CtyType.isNilType] at hok; exact hok.symm
      | capsule c2 =>
        rw [dynamicReplace.eq_def] at hok; simp [CtyType.isDynamicType, CtyType.isNilType] at hok; exact hok.symm
      | list e =>
        rw [dynamicReplace.eq_def] at hok; simp [CtyType.isDynamicType, CtyType.isNilType] at hok; exact hok.symm
      | set e =>
        rw [dynamicReplace.eq_def] at hok; simp [CtyType.isDynamicType, CtyType.isNilType] at hok; exact hok.symm
      | map e =>
        rw [dynamicReplace.eq_def] at hok; simp [CtyType.isDynamicType, CtyType.isNilType] at hok; exact hok.symm
      | object attrs =>
        rw [dynamicReplace.eq_def] at hok; simp [CtyType.isDynamicType, CtyType.isNilType] at hok; exact hok.symm
      | tuple es =>
        rw [dynamicReplace.eq_def] at hok; simp [CtyType.isDynamicType, CtyType.isNilType] at hok; exact hok.symm
    subst hr
    simp [CtyType.isPrimitiveType, CtyType.isCapsuleType, CtyType.isMapType,
      CtyType.isObjectType, CtyType.isSetType, CtyType.isListType]
  | map oe =>
    have hr : ∃ e, r = CtyType.map e := by
      cases tin with
      | dynamic => exact absurd rfl h1
      | nil => exact absurd rfl h2
      | map ie =>
        have heq : dynamicReplace (CtyType.map ie) (CtyType.map oe) =
            (dynamicReplace ie oe).map CtyType.map := by
          rw [dynamicReplace.eq_def]; rfl
        rw [heq, exceptMap_eq_ok] at hok
        obtain ⟨v, _, hv⟩ := hok
        exact ⟨v, hv.symm⟩
      | object iattrs =>
        have heq : dynamicReplace (CtyType.object iattrs) (CtyType.map oe) =
            (dynamicReplace (unify (iattrs.map Prod.snd) true) oe).map CtyType.map := by
          rw [dynamicReplace.eq_def]; rfl
        rw [heq, exceptMap_eq_ok] at hok
        obtain ⟨v, _, hv⟩ := hok
        exact ⟨v, hv.symm⟩
      | prim q => rw [dynamicReplace.eq_def] at hok; simp [CtyType.isDynamicType, CtyType.isNilType] at hok; exact ⟨_, hok.symm⟩
      | capsule c => rw [dynamicReplace.eq_def] at hok; simp [CtyType.isDynamicType, CtyType.isNilType] at hok; exact ⟨_, hok.symm⟩
      | list e => rw [dynamicReplace.eq_def] at hok; simp [CtyType.isDynamicType, CtyType.isNilType] at hok; exact ⟨_, hok.symm⟩
      | set e => rw [dynamicReplace.eq_def] at hok; simp [CtyType.isDynamicType, CtyType.isNilType] at hok; exact ⟨_, hok.symm⟩
      | tuple es => rw [dynamicReplace.eq_def] at hok; simp [CtyType.isDynamicType, CtyType.isNilType] at hok; exact ⟨_, hok.symm⟩
    obtain ⟨e, he⟩ := hr
    subst he
    simp [CtyType.isPrimitiveType, CtyType.isCapsuleType, CtyType.isMapType,
      CtyType.isObjectType, CtyType.isSetType, CtyType.isListType]
  | object oattrs =>
    have hr : ∃ as2, r = CtyType.object as2 := by
      cases tin with
      | dynamic => exact absurd rfl h1
      | nil => exact absurd rfl h2
      | map ie =>
        have heq : dynamicReplace (CtyType.map ie) (CtyType.object oattrs) =
            (replaceAttrsFromMap ie oattrs).map CtyType.object := by
          rw [dynamicReplace.eq_def]; rfl
        rw [heq, exceptMap_eq_ok] at hok
        obtain ⟨v, _, hv⟩ := hok
        exact ⟨v, hv.symm⟩
      | object iattrs =>
        have heq : dynamicReplace (CtyType.object iattrs) (CtyType.object oattrs) =
            (replaceAttrs iattrs oattrs).map CtyType.object := by
          rw [dynamicReplace.eq_def]; rfl
        rw [heq, exceptMap_eq_ok] at hok
        obtain ⟨v, _, hv⟩ := hok
        exact ⟨v, hv.symm⟩
      | prim q => rw [dynamicReplace.eq_def] at hok; simp [CtyType.isDynamicType, CtyType.isNilType] at hok; exact ⟨_, hok.symm⟩
      | capsule c => rw [dynamicReplace.eq_def] at hok; simp [CtyType.isDynamicType, CtyType.isNilType] at hok; exact ⟨_, hok.symm⟩
      | list e => rw [dynamicReplace.eq_def] at hok; simp [CtyType.isDynamicType, CtyType.isNilType] at hok; exact ⟨_, hok.symm⟩
      | set e => rw [dynamicReplace.eq_def] at hok; simp [CtyType.isDynamicType, CtyType.isNilType] at hok; exact ⟨_, hok.symm⟩
      | tuple es => rw [dynamicReplace.eq_def] at hok; simp [CtyType.isDynamicType, CtyType.isNilType] at hok; exact ⟨_, hok.symm⟩
    obtain ⟨as2, he⟩ := hr
    subst he
    simp [CtyType.isPrimitiveType, CtyType.isCapsuleType, CtyType.isMapType,
      CtyType.isObjectType, CtyType.isSetType, CtyType.isListType]
  | set oe =>
    have hr : ∃ e, r = CtyType.set e := by
      cases tin with
      | dynamic => exact absurd rfl h1
      | nil => exact absurd rfl h2
      | list ie =>
        have heq : dynamicReplace (CtyType.list ie) (CtyType.set oe) =
            (dynamicReplace ie oe).map CtyType.set := by
          rw [dynamicReplace.eq_def]; rfl
        rw [heq, exceptMap_eq_ok] at hok
        obtain ⟨v, _, hv⟩ := hok
        exact ⟨v, hv.symm⟩
      | set ie =>
        have heq : dynamicReplace (CtyType.set ie) (CtyType.set oe) =
            (dynamicReplace ie oe).map CtyType.set := by
          rw [dynamicReplace.eq_def]; rfl
        rw [heq, exceptMap_eq_ok] at hok
        obtain ⟨v, _, hv⟩ := hok
        exact ⟨v, hv.symm⟩
      | tuple tes =>
        have heq : dynamicReplace (CtyType.tuple tes) (CtyType.set oe) =
            (dynamicReplace (unify tes true) oe).map CtyType.set := by
          rw [dynamicReplace.eq_def]; rfl
        rw [heq, exceptMap_eq_ok] at hok
        obtain ⟨v, _, hv⟩ := hok
        exact ⟨v, hv.symm⟩
      | prim q => rw [dynamicReplace.eq_def] at hok; simp [CtyType.isDynamicType, CtyType.isNilType] at hok; exact ⟨_, hok.symm⟩
      | capsule c => rw [dynamicReplace.eq_def] at hok; simp [CtyType.isDynamicType, CtyType.isNilType] at hok; exact ⟨_, hok.symm⟩
      | map e => rw [dynamicReplace.eq_def] at hok; simp [CtyType.isDynamicType, CtyType.isNilType] at hok; exact ⟨_, hok.symm⟩
      | object attrs => rw [dynamicReplace.eq_def] at hok; simp [CtyType.isDynamicType, CtyType.isNilType] at hok; exact ⟨_, hok.symm⟩
    obtain ⟨e, he⟩ := hr
    subst he
    simp [CtyType.isPrimitiveType, CtyType.isCapsuleType, CtyType.isMapType,
      CtyType.isObjectType, CtyType.isSetType, CtyType.isListType]
  | list oe =>
    have hr : ∃ e, r = CtyType.list e := by
      cases tin with
      | dynamic => exact absurd rfl h1
      | nil => exact absurd rfl h2
      | list ie =>
        have heq : dynamicReplace (CtyType.list ie) (CtyType.list oe) =
            (dynamicReplace ie oe).map CtyType.list := by
          rw [dynamicReplace.eq_def]; rfl
        rw [heq, exceptMap_eq_ok] at hok
        obtain ⟨v, _, hv⟩ := hok
        exact ⟨v, hv.symm⟩
      | set ie =>
        have heq : dynamicReplace (CtyType.set ie) (CtyType.list oe) =
            (dynamicReplace ie oe).map CtyType.list := by
          rw [dynamicReplace.eq_def]; rfl
        rw [heq, exceptMap_eq_ok] at hok
        obtain ⟨v, _, hv⟩ := hok
        exact ⟨v, hv.symm⟩
      | tuple tes =>
        have heq : dynamicReplace (CtyType.tuple tes) (CtyType.list oe) =
            (dynamicReplace (unify tes true) oe).map CtyType.list := by
          rw [dynamicReplace.eq_def]; rfl
        rw [heq, exceptMap_eq_ok] at hok
        obtain ⟨v, _, hv⟩ := hok
        exact ⟨v, hv.symm⟩
      | prim q => rw [dynamicReplace.eq_def] at hok; simp [CtyType.isDynamicType, CtyType.isNilType] at hok; exact ⟨_, hok.symm⟩
      | capsule c => rw [dynamicReplace.eq_def] at hok; simp [CtyType.isDynamicType, CtyType.isNilType] at hok; exact ⟨_, hok.symm⟩
      | map e => rw [dynamicReplace.eq_def] at hok; simp [CtyType.isDynamicType, CtyType.isNilType] at hok; exact ⟨_, hok.symm⟩
      | object attrs => rw [dynamicReplace.eq_def] at hok; simp [CtyType.isDynamicType, CtyType.isNilType] at hok; exact ⟨_, hok.symm⟩
    obtain ⟨e, he⟩ := hr
    subst he
    simp [CtyType.isPrimitiveType, CtyType.isCapsuleType, CtyType.isMapType,
      CtyType.isObjectType, CtyType.isSetType, CtyType.isListType]
  | tuple oes =>
    have hr : ∃ rs, r = CtyType.tuple rs ∧ rs.length = oes.length := by
      cases tin with
      | dynamic => exact absurd rfl h1
      | nil => exact absurd rfl h2
      | tuple tes =>
        have heq : dynamicReplace (CtyType.tuple tes) (CtyType.tuple oes) =
            (replaceTupleElems tes oes).map CtyType.tuple := by
          rw [dynamicReplace.eq_def]; rfl
        rw [heq, exceptMap_eq_ok] at hok
        obtain ⟨v, hv1, hv2⟩ := hok
        exact ⟨v, hv2.symm, replaceTupleElems_length oes tes v hv1⟩
      | prim q =>
        cases oes with
        | nil =>
          rw [dynamicReplace.eq_def] at hok; simp [CtyType.isDynamicType, CtyType.isNilType] at hok
          exact ⟨[], hok.symm, rfl⟩
        | cons o os => rw [dynamicReplace.eq_def] at hok; simp [CtyType.isDynamicType, CtyType.isNilType] at hok
      | capsule c =>
        cases oes with
        | nil =>
          rw [dynamicReplace.eq_def] at hok; simp [CtyType.isDynamicType, CtyType.isNilType] at hok
          exact ⟨[], hok.symm, rfl⟩
        | cons o os => rw [dynamicReplace.eq_def] at hok; simp [CtyType.isDynamicType, CtyType.isNilType] at hok
      | map e =>
        cases oes with
        | nil =>
          rw [dynamicReplace.eq_def] at hok; simp [CtyType.isDynamicType, CtyType.isNilType] at hok
          exact ⟨[], hok.symm, rfl⟩
        | cons o os => rw [dynamicReplace.eq_def] at hok; simp [CtyType.isDynamicType, CtyType.isNilType] at hok
      | object attrs =>
        cases oes with
        | nil =>
          rw [dynamicReplace.eq_def] at hok; simp [CtyType.isDynamicType, CtyType.isNilType] at hok
          exact ⟨[], hok.symm, rfl⟩
        | cons o os => rw [dynamicReplace.eq_def] at hok; simp [CtyType.isDynamicType, CtyType.isNilType] at hok
      | list e =>
        cases oes with
        | nil =>
          rw [dynamicReplace.eq_def] at hok; simp [CtyType.isDynamicType, CtyType.isNilType] at hok
          exact ⟨[], hok.symm, rfl⟩
        | cons o os => rw [dynamicReplace.eq_def] at hok; simp [CtyType.isDynamicType, CtyType.isNilType] at hok
      | set e =>
        cases oes with
        | nil =>
          rw [dynamicReplace.eq_def] at hok; simp [CtyType.isDynamicType, CtyType.isNilType] at hok
          exact ⟨[], hok.symm, rfl⟩
        | cons o os => rw [dynamicReplace.eq_def] at hok; simp [CtyType.isDynamicType, CtyType.isNilType] at hok
    obtain ⟨rs, he, hlen⟩ := hr
    subst he
    refine ⟨?_, ?_, ?_, ?_, ?_, ?_⟩
    · rintro (h | h) <;> simp [CtyType.isPrimitiveType, CtyType.isCapsuleType] at h
    · intro h; simp [CtyType.isMapType] at h
    · intro h; simp [CtyType.isObjectType] at h
    · intro h; simp [CtyType.isSetType] at h
    · intro h; simp [CtyType.isListType] at h
    · intro oes2 heq2
      cases heq2
      exact ⟨rs, rfl, hlen⟩

theorem C9_variant_preservation_witness :
    ∃ rs, CtyType.tuple [CtyType.prim .number] = CtyType.tuple rs ∧
      rs.length = ([CtyType.dynamic] : List CtyType).length := by
  have hok : dynamicReplace (CtyType.tuple [CtyType.prim .number, CtyType.prim .bool])
      (CtyType.tuple [CtyType.dynamic]) =
      Except.ok (CtyType.tuple [CtyType.prim .number]) := by
    simp [dynamicReplace, replaceTupleElems, CtyType.isDynamicType,
      CtyType.isNilType, Except.map, bind, Except.bind, pure, Except.pure]
  have h := C9_variant_preservation
    (CtyType.tuple [CtyType.prim .number, CtyType.prim .bool])
    (CtyType.tuple [CtyType.dynamic])
    (CtyType.tuple [CtyType.prim .number])
    (by simp) (by simp) (by simp) hok
  exact h.2.2.2.2.2 [CtyType.dynamic] rfl
